import Mathlib

/-!
Breadth-first graph construction: `cc::util::bfsBuild`.

A shallow embedding of `bfsBuild` from `util/include/util/graph.h` together with
the properties of the traversal: which nodes are returned, in which order they are
discovered, which calls are made on the graph, and what happens when `addEdge`
raises an error.

The C++ function mutates a `Graph&`, a local `std::queue` and a local `std::set`.
Here all three are fields of an explicit state record that is threaded through the
loops.  The `while` loop is bounded by a fuel argument that counts dequeues.
-/

namespace cc.util

/-! ## Data model -/

/-- Handle of a node: `struct Node { std::string id; }`.  Two handles are equal
iff their ids are equal (`operator==`). -/
structure Node where
  id : String
deriving DecidableEq, Repr

/-- Handle of an edge: `struct Edge { std::string id; }`. -/
structure Edge where
  id : String
deriving DecidableEq, Repr

/-- The three member functions of `Graph` that `bfsBuild` calls.  Their bodies live
in `graph.cpp`; here they are parameters.  `addEdge` may raise an error (of type
`ε`), in which case the graph is the one it was called on. -/
structure GraphOps (G : Type) (ε : Type) where
  addEdge : G → Node → Node → Except ε (Edge × G)
  setEdgeAttribute : G → Edge → String → String → G
  setNodeAttribute : G → Node → String → String → G

/-- One observable action of a run, in program order. -/
inductive Event where
  /-- The call `queue.push(n)`. -/
  | enqueue (n : Node)
  /-- The statements `queue.front(); queue.pop();` followed by the call `relations_(n)`. -/
  | dequeue (n : Node)
  /-- The call `graph_.addEdge(src, dst)`, which returned `e`. -/
  | addEdge (src dst : Node) (e : Edge)
  /-- The call `graph_.setAttribute(e, key, value)` on an edge. -/
  | setEdgeAttribute (e : Edge) (key value : String)
  /-- The call `visitedNodes.insert(n)`. -/
  | markVisited (n : Node)
  /-- The call `graph_.setAttribute(n, key, value)` on a node. -/
  | setNodeAttribute (n : Node) (key value : String)
deriving DecidableEq, Repr

/-- The mutable data of a run: the graph behind `graph_`, the local `queue`
(front first), the local `visitedNodes`, and the history of actions so far.
`std::set<Node>` is kept as a list; `find` is list membership and `insert`
appends an absent element, so that only membership depends on the content (the
set orders its elements by `operator<` on the ids, under which two handles are
equivalent iff their ids are equal).  The history is bookkeeping of the
embedding: nothing in the loops reads it. -/
structure BfsState (G : Type) where
  graph : G
  queue : List Node
  visitedNodes : List Node
  trace : List Event

/-- How a run ended: the function returned `visitedNodes`, an error escaped from
`addEdge`, or the fuel was used up while the queue was still non-empty. -/
inductive Status (ε : Type) where
  | returned
  | threw (e : ε)
  | running
deriving DecidableEq, Repr

/-- The operation `std::set::insert`: no effect when the element is present. -/
def setInsert (s : List Node) (n : Node) : List Node :=
  if n ∈ s then s else s ++ [n]

/-- Events of `for (decoration : edgeDecoration_) graph_.setAttribute(edge, ..)`. -/
def edgeDecoEvents (edgeDecoration : List (String × String)) (edge : Edge) : List Event :=
  edgeDecoration.map (fun d => Event.setEdgeAttribute edge d.1 d.2)

/-- Events of `for (decoration : nodeDecoration_) graph_.setAttribute(to, ..)`. -/
def nodeDecoEvents (nodeDecoration : List (String × String)) (n : Node) : List Event :=
  nodeDecoration.map (fun d => Event.setNodeAttribute n d.1 d.2)

/-- The loop `for (decoration : edgeDecoration_) graph_.setAttribute(edge, ..)`.
A decoration map (`std::map<std::string, std::string>`) is given by its entries
in iteration order. -/
def decorateEdge {G ε : Type} (ops : GraphOps G ε)
    (edgeDecoration : List (String × String)) (edge : Edge) (g : G) : G :=
  edgeDecoration.foldl (fun acc d => ops.setEdgeAttribute acc edge d.1 d.2) g

/-- The loop `for (decoration : nodeDecoration_) graph_.setAttribute(to, ..)`. -/
def decorateNode {G ε : Type} (ops : GraphOps G ε)
    (nodeDecoration : List (String × String)) (n : Node) (g : G) : G :=
  nodeDecoration.foldl (fun acc d => ops.setNodeAttribute acc n d.1 d.2) g

/-- Body of the inner `for` loop (lines 294-306) for one element `dst` (the loop variable
`to`) of `relations_(current)`. -/
def visitChild {G ε : Type} (ops : GraphOps G ε)
    (nodeDecoration edgeDecoration : List (String × String))
    (current : Node) (st : BfsState G) (dst : Node) : Except ε (BfsState G) :=
  match ops.addEdge st.graph current dst with
  | .error e => .error e
  | .ok (edge, g1) =>
    let g2 := decorateEdge ops edgeDecoration edge g1
    let tr2 := st.trace ++ Event.addEdge current dst edge :: edgeDecoEvents edgeDecoration edge
    if dst ∈ st.visitedNodes then
      .ok { st with graph := g2, trace := tr2 }
    else
      .ok { graph := decorateNode ops nodeDecoration dst g2
            queue := st.queue ++ [dst]
            visitedNodes := setInsert st.visitedNodes dst
            trace := tr2 ++ Event.enqueue dst :: Event.markVisited dst
                       :: nodeDecoEvents nodeDecoration dst }

/-- The inner loop `for (const Graph::Node& to : relations_(current))`.  The
result is `none` when every element was handled and `some e` when `addEdge`
raised `e`; the state is the one reached at that point. -/
def forEachChild {G ε : Type} (ops : GraphOps G ε)
    (nodeDecoration edgeDecoration : List (String × String))
    (current : Node) : List Node → BfsState G → Option ε × BfsState G
  | [], st => (none, st)
  | dst :: rest, st =>
    match visitChild ops nodeDecoration edgeDecoration current st dst with
    | .error e => (some e, st)
    | .ok st1 => forEachChild ops nodeDecoration edgeDecoration current rest st1

/-- The loop `while (!queue.empty())`; `fuel` bounds the number of dequeues.  The
result is the way the loop ended and the state at that point: with `returned`
the queue is empty, with `threw e` the state is the one in which `addEdge`
raised `e`, with `running` the fuel was used up. -/
def bfsLoop {G ε : Type} (ops : GraphOps G ε) (relations : Node → List Node)
    (nodeDecoration edgeDecoration : List (String × String)) :
    Nat → BfsState G → Status ε × BfsState G
  | 0, st =>
    match st.queue with
    | [] => (Status.returned, st)
    | _ :: _ => (Status.running, st)
  | fuel + 1, st =>
    match st.queue with
    | [] => (Status.returned, st)
    | current :: rest =>
      match forEachChild ops nodeDecoration edgeDecoration current (relations current)
          { st with queue := rest, trace := st.trace ++ [Event.dequeue current] } with
      | (some e, st1) => (Status.threw e, st1)
      | (none, st1) => bfsLoop ops relations nodeDecoration edgeDecoration fuel st1

/-- State after `std::set<Node> visitedNodes; std::queue<Node> queue;
queue.push(startNode_);`. -/
def initState {G : Type} (g : G) (startNode : Node) : BfsState G :=
  { graph := g, queue := [startNode], visitedNodes := [], trace := [Event.enqueue startNode] }

/-- The function `bfsBuild(graph_, startNode_, relations_, nodeDecoration_,
edgeDecoration_)`.
With status `returned` the C++ return value is `visitedNodes` of the final state
and `graph` is the content of `graph_` afterwards. -/
def bfsBuild {G ε : Type} (fuel : Nat) (ops : GraphOps G ε) (g : G) (startNode : Node)
    (relations : Node → List Node)
    (nodeDecoration edgeDecoration : List (String × String)) : Status ε × BfsState G :=
  bfsLoop ops relations nodeDecoration edgeDecoration fuel (initState g startNode)

/-! ## Projections of the history -/

/-- Nodes passed to `queue.push`, in order. -/
def enqueues (tr : List Event) : List Node :=
  tr.filterMap (fun ev => match ev with | Event.enqueue n => some n | _ => none)

/-- Nodes taken from the queue, in order; `relations_` is called once per entry. -/
def dequeues (tr : List Event) : List Node :=
  tr.filterMap (fun ev => match ev with | Event.dequeue n => some n | _ => none)

/-- Nodes passed to `visitedNodes.insert`, in order: the discovery sequence. -/
def discovered (tr : List Event) : List Node :=
  tr.filterMap (fun ev => match ev with | Event.markVisited n => some n | _ => none)

/-- Endpoints of the `addEdge` calls, in order. -/
def edgeCalls (tr : List Event) : List (Node × Node) :=
  tr.filterMap (fun ev => match ev with | Event.addEdge a b _ => some (a, b) | _ => none)

/-- The `setAttribute` calls on nodes, in order. -/
def nodeAttrCalls (tr : List Event) : List (Node × String × String) :=
  tr.filterMap (fun ev => match ev with
    | Event.setNodeAttribute n k v => some (n, k, v) | _ => none)

/-- The `setAttribute` calls on edges, in order. -/
def edgeAttrCalls (tr : List Event) : List (Edge × String × String) :=
  tr.filterMap (fun ev => match ev with
    | Event.setEdgeAttribute e k v => some (e, k, v) | _ => none)

/-- Edges returned by the `addEdge` calls, in order. -/
def edgesReturned (tr : List Event) : List Edge :=
  tr.filterMap (fun ev => match ev with | Event.addEdge _ _ e => some e | _ => none)

/-- Re-execution of the graph calls of a history on a graph: the result is the
graph after those calls, provided each `addEdge` succeeds and returns the edge
the history says it returned. -/
def replay {G ε : Type} (ops : GraphOps G ε) : List Event → G → Option G
  | [], g => some g
  | Event.addEdge a b e :: rest, g =>
    match ops.addEdge g a b with
    | .ok (e1, g1) => if e1 = e then replay ops rest g1 else none
    | .error _ => none
  | Event.setEdgeAttribute e k v :: rest, g => replay ops rest (ops.setEdgeAttribute g e k v)
  | Event.setNodeAttribute n k v :: rest, g => replay ops rest (ops.setNodeAttribute g n k v)
  | _ :: rest, g => replay ops rest g

/-! ## Reachability -/

/-- One step of the relation: `b` is among `relations_(a)`. -/
def Step (relations : Node → List Node) (a b : Node) : Prop := b ∈ relations a

/-- Reachable from `a` by one or more relation steps. -/
def Reach (relations : Node → List Node) (a b : Node) : Prop :=
  Relation.TransGen (Step relations) a b

/-- Reachable from `start` by between one and `k` relation steps. -/
inductive Near (relations : Node → List Node) (start : Node) : Nat → Node → Prop where
  | first {k : Nat} {n : Node} : n ∈ relations start → Near relations start (k + 1) n
  | next {k : Nat} {c n : Node} :
      Near relations start k c → n ∈ relations c → Near relations start (k + 1) n

/-- The elements of a list that are not in `seen`, each at its first occurrence
only, in the order of the list. -/
def firstOccurrences : List Node → List Node → List Node
  | [], _ => []
  | x :: xs, seen => if x ∈ seen then firstOccurrences xs seen
                     else x :: firstOccurrences xs (seen ++ [x])

/-! ## The graph model of the specification -/

/-- Modelled from the spec: the error taxonomy of section 7, of which only the
usage error can come out of `addEdge`; the class `Graph` is only declared in
`graph.h`, its member functions are defined in `graph.cpp`. -/
inductive GraphError where
  | usageError
deriving DecidableEq, Repr

/-- Modelled from the spec: the GraphModel of sections 3 and 4.3 (the bodies of
the `Graph` member functions are in `graph.cpp`).  It owns a set of nodes, the
edges in insertion order with their ordered endpoint pair, one attribute store
per node and per edge, and the counter of the IdentifierAllocator.  `directed`
and `strict` are fixed at construction.  Subgraphs and the literal flag of
attribute values play no part in the calls made by `bfsBuild` and are left out. -/
structure GraphModel where
  directed : Bool
  strict : Bool
  nodes : List Node
  edges : List (Edge × Node × Node)
  nodeAttrs : List (Node × String × String)
  edgeAttrs : List (Edge × String × String)
  counter : Nat
deriving DecidableEq, Repr

/-- Modelled from the spec: lookup of an edge by its endpoint pair (section 4.3;
the body is in `graph.cpp`): "directed graphs store order-sensitive pairs;
undirected graphs treat (a,b) and (b,a) as the same edge for lookup purposes". -/
def GraphModel.findEdge (g : GraphModel) (a b : Node) : Option Edge :=
  (g.edges.find? (fun x =>
    decide (x.2.1 = a ∧ x.2.2 = b) || (!g.directed && decide (x.2.1 = b ∧ x.2.2 = a)))).map
    Prod.fst

/-- Modelled from the spec: `addEdge(from, to) -> Edge` of section 4.3 (the body
is in `graph.cpp`).  "If `from` or `to` does not exist in the model, this is a
usage error"; "if the graph is strict and an edge with this exact ordered pair
already exists, returns that edge unchanged"; a strict graph rejects a self edge
(section 3), for which the null handle is returned and nothing is created;
otherwise an edge with a freshly allocated id is created.  No node is created. -/
def GraphModel.addEdge (g : GraphModel) (a b : Node) : Except GraphError (Edge × GraphModel) :=
  if a ∈ g.nodes ∧ b ∈ g.nodes then
    if g.strict then
      match g.findEdge a b with
      | some e => .ok (e, g)
      | none =>
        if a = b then .ok (⟨""⟩, g)
        else .ok (⟨toString g.counter⟩,
          { g with edges := g.edges ++ [(⟨toString g.counter⟩, a, b)]
                   counter := g.counter + 1 })
    else .ok (⟨toString g.counter⟩,
      { g with edges := g.edges ++ [(⟨toString g.counter⟩, a, b)]
               counter := g.counter + 1 })
  else .error GraphError.usageError

/-- Modelled from the spec: `setAttribute` on a node (sections 4.2 and 4.3; the
body is in `graph.cpp`): "inserts or overwrites the attribute. Last write wins". -/
def GraphModel.setNodeAttribute (g : GraphModel) (n : Node) (key value : String) : GraphModel :=
  { g with nodeAttrs :=
      g.nodeAttrs.filter (fun x => !decide (x.1 = n ∧ x.2.1 = key)) ++ [(n, key, value)] }

/-- Modelled from the spec: `setAttribute` on an edge (sections 4.2 and 4.3; the
body is in `graph.cpp`): "inserts or overwrites the attribute. Last write wins". -/
def GraphModel.setEdgeAttribute (g : GraphModel) (e : Edge) (key value : String) : GraphModel :=
  { g with edgeAttrs :=
      g.edgeAttrs.filter (fun x => !decide (x.1 = e ∧ x.2.1 = key)) ++ [(e, key, value)] }

/-- Modelled from the spec: the GraphModel operations that `bfsBuild` calls,
bundled (their bodies are in `graph.cpp`). -/
def specOps : GraphOps GraphModel GraphError where
  addEdge := GraphModel.addEdge
  setEdgeAttribute := GraphModel.setEdgeAttribute
  setNodeAttribute := GraphModel.setNodeAttribute

/-! ## Test fixtures -/

/-- A graph that records the endpoints of its edges and accepts every call. -/
def looseOps : GraphOps (List (Node × Node)) Unit where
  addEdge g a b := .ok (⟨toString g.length⟩, g ++ [(a, b)])
  setEdgeAttribute g _ _ _ := g
  setNodeAttribute g _ _ _ := g

def nRoot : Node := ⟨"root"⟩
def nB : Node := ⟨"b"⟩
def nC : Node := ⟨"c"⟩
def nD : Node := ⟨"d"⟩

/-- The diamond `f(root) = [b, c]`, `f(b) = [d]`, `f(c) = [d]`, `f(d) = []`. -/
def diamond (n : Node) : List Node :=
  if n = nRoot then [nB, nC]
  else if n = nB then [nD]
  else if n = nC then [nD]
  else []

/-- A relation with a cycle through the start node: `root -> b -> root`. -/
def twoCycle (n : Node) : List Node :=
  if n = nRoot then [nB]
  else if n = nB then [nRoot]
  else []

/-- A directed, non-strict graph whose only node is `root`. -/
def rootOnly : GraphModel :=
  { directed := true, strict := false, nodes := [nRoot], edges := [],
    nodeAttrs := [], edgeAttrs := [], counter := 0 }

/-- A directed, non-strict graph with the four nodes of the diamond and no edge. -/
def fourNodes : GraphModel :=
  { directed := true, strict := false, nodes := [nRoot, nB, nC, nD], edges := [],
    nodeAttrs := [], edgeAttrs := [], counter := 0 }

/-- What has to follow an event at once: the edge decoration after `addEdge`,
the node decoration after `visitedNodes.insert`. -/
def follower (nodeDecoration edgeDecoration : List (String × String)) : Event → List Event
  | Event.addEdge _ _ e => edgeDecoEvents edgeDecoration e
  | Event.markVisited n => nodeDecoEvents nodeDecoration n
  | _ => []

/-- Every event of the history is directly followed by its `follower`. -/
def WellFollowed (nodeDecoration edgeDecoration : List (String × String)) : List Event → Prop
  | [] => True
  | ev :: rest => follower nodeDecoration edgeDecoration ev <+: rest ∧
      WellFollowed nodeDecoration edgeDecoration rest

/-- Level of a queue entry: level `0` is the initial entry `startNode_`, level
`d + 1` holds the nodes whose shortest path of one or more steps has `d + 1` steps. -/
def AtLevel (relations : Node → List Node) (start : Node) : Nat → Node → Prop
  | 0, x => x = start
  | d + 1, x => Near relations start (d + 1) x ∧ ¬ Near relations start d x

/-- State after `queue.front(); queue.pop();`. -/
def poppedState {G : Type} (current : Node) (rest : List Node) (st : BfsState G) : BfsState G :=
  { st with queue := rest, trace := st.trace ++ [Event.dequeue current] }

/-- State after one pass of the inner loop body whose target was already visited. -/
def seenState {G ε : Type} (ops : GraphOps G ε) (edgeDecoration : List (String × String))
    (current dst : Node) (edge : Edge) (g1 : G) (st : BfsState G) : BfsState G :=
  { st with
    graph := decorateEdge ops edgeDecoration edge g1
    trace := st.trace ++ Event.addEdge current dst edge :: edgeDecoEvents edgeDecoration edge }

/-- State after one pass of the inner loop body whose target is newly discovered. -/
def freshState {G ε : Type} (ops : GraphOps G ε)
    (nodeDecoration edgeDecoration : List (String × String))
    (current dst : Node) (edge : Edge) (g1 : G) (st : BfsState G) : BfsState G :=
  { graph := decorateNode ops nodeDecoration dst (decorateEdge ops edgeDecoration edge g1)
    queue := st.queue ++ [dst]
    visitedNodes := st.visitedNodes ++ [dst]
    trace := (st.trace ++ Event.addEdge current dst edge :: edgeDecoEvents edgeDecoration edge)
      ++ Event.enqueue dst :: Event.markVisited dst :: nodeDecoEvents nodeDecoration dst }

/-- Facts that hold after every single action of a run started on graph `g0`
at `start`. -/
structure Safe {G ε : Type} (ops : GraphOps G ε) (g0 : G) (start : Node)
    (nodeDecoration edgeDecoration : List (String × String)) (st : BfsState G) : Prop where
  disc : discovered st.trace = st.visitedNodes
  nodup : st.visitedNodes.Nodup
  enq : enqueues st.trace = start :: st.visitedNodes
  deq : dequeues st.trace ++ st.queue = start :: st.visitedNodes
  rep : replay ops st.trace g0 = some st.graph
  nattr : nodeAttrCalls st.trace
    = st.visitedNodes.flatMap (fun n => nodeDecoration.map (fun d => (n, d.1, d.2)))
  eattr : edgeAttrCalls st.trace
    = (edgesReturned st.trace).flatMap (fun e => edgeDecoration.map (fun d => (e, d.1, d.2)))
  follow : WellFollowed nodeDecoration edgeDecoration st.trace
  order : st.visitedNodes = firstOccurrences ((edgeCalls st.trace).map Prod.snd) []

/-- The `addEdge` calls that are due for a sequence of dequeued nodes: for each
dequeued node, in order, one call per entry of its relation result, in order. -/
def expectedEdgeCalls (relations : Node → List Node) (ds : List Node) : List (Node × Node) :=
  ds.flatMap (fun c => (relations c).map (fun t => (c, t)))

/-- The level structure of a breadth-first traversal while level `d` is being
processed: `Qa` are the queued entries of level `d`, `Qb` those of level `d + 1`,
`V` is the visited set and `extra` marks the children of the node being processed
that are still to be handled. -/
structure Levels (relations : Node → List Node) (start : Node) (d : Nat)
    (Qa Qb V : List Node) (extra : Node → Prop) : Prop where
  qa : ∀ x ∈ Qa, AtLevel relations start d x
  qb : ∀ x ∈ Qb, AtLevel relations start (d + 1) x
  within : ∀ n ∈ V, Near relations start (d + 1) n
  complete : ∀ n, Near relations start d n → n ∈ V
  frontier : ∀ n, Near relations start (d + 1) n →
    n ∈ V ∨ extra n ∨ ∃ c ∈ Qa, n ∈ relations c
  pending : ∀ n ∈ V, ¬ Near relations start d n → n ∈ Qb
  sorted : V.Pairwise (fun a b => ∀ k, Near relations start k b → Near relations start k a)

/-! ## Lemmas on the projections -/

section Projections

variable (a b : List Event) (n m : Node) (e : Edge) (k v : String)
  (nd ed : List (String × String))

@[simp] theorem enqueues_append : enqueues (a ++ b) = enqueues a ++ enqueues b := by
  simp [enqueues]
@[simp] theorem dequeues_append : dequeues (a ++ b) = dequeues a ++ dequeues b := by
  simp [dequeues]
@[simp] theorem discovered_append : discovered (a ++ b) = discovered a ++ discovered b := by
  simp [discovered]
@[simp] theorem edgeCalls_append : edgeCalls (a ++ b) = edgeCalls a ++ edgeCalls b := by
  simp [edgeCalls]
@[simp] theorem nodeAttrCalls_append :
    nodeAttrCalls (a ++ b) = nodeAttrCalls a ++ nodeAttrCalls b := by
  simp [nodeAttrCalls]
@[simp] theorem edgeAttrCalls_append :
    edgeAttrCalls (a ++ b) = edgeAttrCalls a ++ edgeAttrCalls b := by
  simp [edgeAttrCalls]
@[simp] theorem edgesReturned_append :
    edgesReturned (a ++ b) = edgesReturned a ++ edgesReturned b := by
  simp [edgesReturned]

@[simp] theorem enqueues_nil : enqueues [] = [] := rfl
@[simp] theorem dequeues_nil : dequeues [] = [] := rfl
@[simp] theorem discovered_nil : discovered [] = [] := rfl
@[simp] theorem edgeCalls_nil : edgeCalls [] = [] := rfl
@[simp] theorem nodeAttrCalls_nil : nodeAttrCalls [] = [] := rfl
@[simp] theorem edgeAttrCalls_nil : edgeAttrCalls [] = [] := rfl
@[simp] theorem edgesReturned_nil : edgesReturned [] = [] := rfl

@[simp] theorem enqueues_cons (ev : Event) :
    enqueues (ev :: a) = (match ev with | Event.enqueue x => [x] | _ => []) ++ enqueues a := by
  cases ev <;> simp [enqueues]
@[simp] theorem dequeues_cons (ev : Event) :
    dequeues (ev :: a) = (match ev with | Event.dequeue x => [x] | _ => []) ++ dequeues a := by
  cases ev <;> simp [dequeues]
@[simp] theorem discovered_cons (ev : Event) :
    discovered (ev :: a)
      = (match ev with | Event.markVisited x => [x] | _ => []) ++ discovered a := by
  cases ev <;> simp [discovered]
@[simp] theorem edgeCalls_cons (ev : Event) :
    edgeCalls (ev :: a)
      = (match ev with | Event.addEdge x y _ => [(x, y)] | _ => []) ++ edgeCalls a := by
  cases ev <;> simp [edgeCalls]
@[simp] theorem nodeAttrCalls_cons (ev : Event) :
    nodeAttrCalls (ev :: a)
      = (match ev with | Event.setNodeAttribute x y z => [(x, y, z)] | _ => [])
          ++ nodeAttrCalls a := by
  cases ev <;> simp [nodeAttrCalls]
@[simp] theorem edgeAttrCalls_cons (ev : Event) :
    edgeAttrCalls (ev :: a)
      = (match ev with | Event.setEdgeAttribute x y z => [(x, y, z)] | _ => [])
          ++ edgeAttrCalls a := by
  cases ev <;> simp [edgeAttrCalls]
@[simp] theorem edgesReturned_cons (ev : Event) :
    edgesReturned (ev :: a)
      = (match ev with | Event.addEdge _ _ x => [x] | _ => []) ++ edgesReturned a := by
  cases ev <;> simp [edgesReturned]

@[simp] theorem enqueues_edgeDeco : enqueues (edgeDecoEvents ed e) = [] := by
  induction ed with
  | nil => rfl
  | cons d t ih => simpa [edgeDecoEvents] using ih
@[simp] theorem dequeues_edgeDeco : dequeues (edgeDecoEvents ed e) = [] := by
  induction ed with
  | nil => rfl
  | cons d t ih => simpa [edgeDecoEvents] using ih
@[simp] theorem discovered_edgeDeco : discovered (edgeDecoEvents ed e) = [] := by
  induction ed with
  | nil => rfl
  | cons d t ih => simpa [edgeDecoEvents] using ih
@[simp] theorem edgeCalls_edgeDeco : edgeCalls (edgeDecoEvents ed e) = [] := by
  induction ed with
  | nil => rfl
  | cons d t ih => simpa [edgeDecoEvents] using ih
@[simp] theorem nodeAttrCalls_edgeDeco : nodeAttrCalls (edgeDecoEvents ed e) = [] := by
  induction ed with
  | nil => rfl
  | cons d t ih => simpa [edgeDecoEvents] using ih
@[simp] theorem edgesReturned_edgeDeco : edgesReturned (edgeDecoEvents ed e) = [] := by
  induction ed with
  | nil => rfl
  | cons d t ih => simpa [edgeDecoEvents] using ih
@[simp] theorem edgeAttrCalls_edgeDeco :
    edgeAttrCalls (edgeDecoEvents ed e) = ed.map (fun d => (e, d.1, d.2)) := by
  induction ed with
  | nil => rfl
  | cons d t ih => simpa [edgeDecoEvents] using ih

@[simp] theorem enqueues_nodeDeco : enqueues (nodeDecoEvents nd n) = [] := by
  induction nd with
  | nil => rfl
  | cons d t ih => simpa [nodeDecoEvents] using ih
@[simp] theorem dequeues_nodeDeco : dequeues (nodeDecoEvents nd n) = [] := by
  induction nd with
  | nil => rfl
  | cons d t ih => simpa [nodeDecoEvents] using ih
@[simp] theorem discovered_nodeDeco : discovered (nodeDecoEvents nd n) = [] := by
  induction nd with
  | nil => rfl
  | cons d t ih => simpa [nodeDecoEvents] using ih
@[simp] theorem edgeCalls_nodeDeco : edgeCalls (nodeDecoEvents nd n) = [] := by
  induction nd with
  | nil => rfl
  | cons d t ih => simpa [nodeDecoEvents] using ih
@[simp] theorem edgeAttrCalls_nodeDeco : edgeAttrCalls (nodeDecoEvents nd n) = [] := by
  induction nd with
  | nil => rfl
  | cons d t ih => simpa [nodeDecoEvents] using ih
@[simp] theorem edgesReturned_nodeDeco : edgesReturned (nodeDecoEvents nd n) = [] := by
  induction nd with
  | nil => rfl
  | cons d t ih => simpa [nodeDecoEvents] using ih
@[simp] theorem nodeAttrCalls_nodeDeco :
    nodeAttrCalls (nodeDecoEvents nd n) = nd.map (fun d => (n, d.1, d.2)) := by
  induction nd with
  | nil => rfl
  | cons d t ih => simpa [nodeDecoEvents] using ih

end Projections

/-! ## The loop body, case by case -/

section Rules

variable {G ε : Type} (ops : GraphOps G ε) (relations : Node → List Node)
  (nd ed : List (String × String))

theorem visitChild_seen (current dst : Node) (st : BfsState G) (edge : Edge) (g1 : G)
    (hadd : ops.addEdge st.graph current dst = .ok (edge, g1))
    (hmem : dst ∈ st.visitedNodes) :
    visitChild ops nd ed current st dst = .ok (seenState ops ed current dst edge g1 st) := by
  simp [visitChild, hadd, hmem, seenState]

theorem visitChild_fresh (current dst : Node) (st : BfsState G) (edge : Edge) (g1 : G)
    (hadd : ops.addEdge st.graph current dst = .ok (edge, g1))
    (hmem : dst ∉ st.visitedNodes) :
    visitChild ops nd ed current st dst
      = .ok (freshState ops nd ed current dst edge g1 st) := by
  simp [visitChild, hadd, hmem, freshState, setInsert]

theorem visitChild_error (current dst : Node) (st : BfsState G) (e : ε)
    (hadd : ops.addEdge st.graph current dst = .error e) :
    visitChild ops nd ed current st dst = .error e := by
  simp [visitChild, hadd]

/-- Invariant rule for the inner loop: `R rest st` is the invariant when `rest`
is still to be handled. -/
theorem forEachChild_rule (current : Node) (R : List Node → BfsState G → Prop)
    (h_seen : ∀ dst rest st edge g1, R (dst :: rest) st →
      ops.addEdge st.graph current dst = .ok (edge, g1) → dst ∈ st.visitedNodes →
      R rest (seenState ops ed current dst edge g1 st))
    (h_fresh : ∀ dst rest st edge g1, R (dst :: rest) st →
      ops.addEdge st.graph current dst = .ok (edge, g1) → dst ∉ st.visitedNodes →
      R rest (freshState ops nd ed current dst edge g1 st)) :
    ∀ (children : List Node) (st : BfsState G), R children st →
      (∀ st1, forEachChild ops nd ed current children st = (none, st1) → R [] st1) ∧
      (∀ e st1, forEachChild ops nd ed current children st = (some e, st1) →
        ∃ dst rest, R (dst :: rest) st1 ∧ ops.addEdge st1.graph current dst = .error e) := by
  intro children
  induction children with
  | nil =>
    intro st hR
    constructor
    · intro st1 h
      simp only [forEachChild, Prod.mk.injEq, true_and] at h
      subst h; exact hR
    · intro e st1 h
      simp [forEachChild] at h
  | cons dst rest ih =>
    intro st hR
    cases hadd : ops.addEdge st.graph current dst with
    | error e0 =>
      have hv := visitChild_error ops nd ed current dst st e0 hadd
      constructor
      · intro st1 h
        simp [forEachChild, hv] at h
      · intro e st1 h
        simp only [forEachChild, hv, Prod.mk.injEq, Option.some.injEq] at h
        obtain ⟨he, hst⟩ := h
        subst he; subst hst
        exact ⟨dst, rest, hR, hadd⟩
    | ok r =>
      obtain ⟨edge, g1⟩ := r
      by_cases hmem : dst ∈ st.visitedNodes
      · have hv := visitChild_seen ops nd ed current dst st edge g1 hadd hmem
        have hR1 := h_seen dst rest st edge g1 hR hadd hmem
        simpa [forEachChild, hv] using ih _ hR1
      · have hv := visitChild_fresh ops nd ed current dst st edge g1 hadd hmem
        have hR1 := h_fresh dst rest st edge g1 hR hadd hmem
        simpa [forEachChild, hv] using ih _ hR1

/-- Invariant rule for the outer loop: `P` holds whenever the loop condition is
tested, `R current rest` holds inside the inner loop. -/
theorem bfsLoop_rule (P : BfsState G → Prop) (R : Node → List Node → BfsState G → Prop)
    (h_enter : ∀ st current rest, P st → st.queue = current :: rest →
      R current (relations current) (poppedState current rest st))
    (h_seen : ∀ current dst rest st edge g1, R current (dst :: rest) st →
      ops.addEdge st.graph current dst = .ok (edge, g1) → dst ∈ st.visitedNodes →
      R current rest (seenState ops ed current dst edge g1 st))
    (h_fresh : ∀ current dst rest st edge g1, R current (dst :: rest) st →
      ops.addEdge st.graph current dst = .ok (edge, g1) → dst ∉ st.visitedNodes →
      R current rest (freshState ops nd ed current dst edge g1 st))
    (h_exit : ∀ current st, R current [] st → P st) :
    ∀ (fuel : Nat) (st : BfsState G), P st →
      (∀ st1, bfsLoop ops relations nd ed fuel st = (Status.returned, st1) →
        P st1 ∧ st1.queue = []) ∧
      (∀ st1, bfsLoop ops relations nd ed fuel st = (Status.running, st1) →
        P st1 ∧ st1.queue ≠ []) ∧
      (∀ e st1, bfsLoop ops relations nd ed fuel st = (Status.threw e, st1) →
        ∃ current dst rest, R current (dst :: rest) st1 ∧
          ops.addEdge st1.graph current dst = .error e) := by
  intro fuel
  induction fuel with
  | zero =>
    intro st hP
    cases hq : st.queue with
    | nil =>
      refine ⟨?_, ?_, ?_⟩
      · intro st1 h
        simp only [bfsLoop, hq, Prod.mk.injEq, true_and] at h
        subst h; exact ⟨hP, hq⟩
      · intro st1 h; simp [bfsLoop, hq] at h
      · intro e st1 h; simp [bfsLoop, hq] at h
    | cons current rest =>
      refine ⟨?_, ?_, ?_⟩
      · intro st1 h; simp [bfsLoop, hq] at h
      · intro st1 h
        simp only [bfsLoop, hq, Prod.mk.injEq, true_and] at h
        subst h; exact ⟨hP, by simp [hq]⟩
      · intro e st1 h; simp [bfsLoop, hq] at h
  | succ fuel ih =>
    intro st hP
    cases hq : st.queue with
    | nil =>
      refine ⟨?_, ?_, ?_⟩
      · intro st1 h
        simp only [bfsLoop, hq, Prod.mk.injEq, true_and] at h
        subst h; exact ⟨hP, hq⟩
      · intro st1 h; simp [bfsLoop, hq] at h
      · intro e st1 h; simp [bfsLoop, hq] at h
    | cons current rest =>
      have hR := h_enter st current rest hP hq
      have hin := forEachChild_rule ops nd ed current (R current)
        (h_seen current) (h_fresh current) (relations current) _ hR
      have hunf : bfsLoop ops relations nd ed (fuel + 1) st
          = match forEachChild ops nd ed current (relations current)
              (poppedState current rest st) with
            | (some e, st1) => (Status.threw e, st1)
            | (none, st1) => bfsLoop ops relations nd ed fuel st1 := by
        simp [bfsLoop, hq, poppedState]
      rw [hunf]
      rcases hfe : forEachChild ops nd ed current (relations current)
          (poppedState current rest st) with ⟨r, st2⟩
      cases r with
      | none =>
        have hP2 := h_exit current st2 (hin.1 st2 hfe)
        simpa using ih st2 hP2
      | some e0 =>
        obtain ⟨dst, rest1, hR1, herr⟩ := hin.2 e0 st2 hfe
        refine ⟨?_, ?_, ?_⟩
        · intro st1 h; simp at h
        · intro st1 h; simp at h
        · intro e st1 h
          simp only [Prod.mk.injEq, Status.threw.injEq] at h
          obtain ⟨he, hst⟩ := h
          subst he; subst hst
          exact ⟨current, dst, rest1, hR1, herr⟩

/-- A property kept by every single action holds in the final state of every
run, however it ended. -/
theorem bfsLoop_always (P : BfsState G → Prop)
    (h_pop : ∀ st current rest, P st → st.queue = current :: rest →
      P (poppedState current rest st))
    (h_seen : ∀ current dst st edge g1, P st →
      ops.addEdge st.graph current dst = .ok (edge, g1) → dst ∈ st.visitedNodes →
      P (seenState ops ed current dst edge g1 st))
    (h_fresh : ∀ current dst st edge g1, P st →
      ops.addEdge st.graph current dst = .ok (edge, g1) → dst ∉ st.visitedNodes →
      P (freshState ops nd ed current dst edge g1 st))
    (fuel : Nat) (st : BfsState G) (hP : P st) :
    P (bfsLoop ops relations nd ed fuel st).2 := by
  have h := bfsLoop_rule ops relations nd ed P (fun _ _ => P) h_pop
    (fun current dst _ st edge g1 => h_seen current dst st edge g1)
    (fun current dst _ st edge g1 => h_fresh current dst st edge g1)
    (fun _ _ h => h) fuel st hP
  rcases hres : bfsLoop ops relations nd ed fuel st with ⟨status, st1⟩
  cases status with
  | returned => exact (h.1 st1 hres).1
  | running => exact (h.2.1 st1 hres).1
  | threw e =>
    obtain ⟨_, _, _, hR, _⟩ := h.2.2 e st1 hres
    exact hR

end Rules

/-! ## Facts that hold after every action -/

section SafeFacts

variable {G ε : Type} (ops : GraphOps G ε) (relations : Node → List Node)
  (nd ed : List (String × String))

theorem replay_append (t1 t2 : List Event) (g : G) :
    replay ops (t1 ++ t2) g = (replay ops t1 g).bind (fun g1 => replay ops t2 g1) := by
  induction t1 generalizing g with
  | nil => simp [replay]
  | cons ev rest ih =>
    cases ev with
    | addEdge a b e =>
      simp only [List.cons_append, replay]
      cases hadd : ops.addEdge g a b with
      | error e0 => simp
      | ok r =>
        obtain ⟨e1, g1⟩ := r
        by_cases he : e1 = e
        · simp [he, ih]
        · simp [he]
    | enqueue n => simp [replay, ih]
    | dequeue n => simp [replay, ih]
    | setEdgeAttribute e k v => simp [replay, ih]
    | markVisited n => simp [replay, ih]
    | setNodeAttribute n k v => simp [replay, ih]

theorem replay_edgeDeco (e : Edge) (g : G) :
    replay ops (edgeDecoEvents ed e) g = some (decorateEdge ops ed e g) := by
  induction ed generalizing g with
  | nil => simp [edgeDecoEvents, decorateEdge, replay]
  | cons d t ih =>
    have := ih (ops.setEdgeAttribute g e d.1 d.2)
    simpa [edgeDecoEvents, decorateEdge, replay] using this

theorem replay_nodeDeco (n : Node) (g : G) :
    replay ops (nodeDecoEvents nd n) g = some (decorateNode ops nd n g) := by
  induction nd generalizing g with
  | nil => simp [nodeDecoEvents, decorateNode, replay]
  | cons d t ih =>
    have := ih (ops.setNodeAttribute g n d.1 d.2)
    simpa [nodeDecoEvents, decorateNode, replay] using this

theorem wellFollowed_append (t1 t2 : List Event)
    (h1 : WellFollowed nd ed t1) (h2 : WellFollowed nd ed t2) :
    WellFollowed nd ed (t1 ++ t2) := by
  induction t1 with
  | nil => simpa using h2
  | cons ev rest ih =>
    obtain ⟨hp, hr⟩ := h1
    refine ⟨?_, ih hr⟩
    exact hp.trans (List.prefix_append rest t2)

theorem wellFollowed_edgeDecoEvents (l : List (String × String)) (e : Edge) :
    WellFollowed nd ed (edgeDecoEvents l e) := by
  induction l with
  | nil => simp [edgeDecoEvents, WellFollowed]
  | cons d t ih =>
    exact ⟨by simp [follower], ih⟩

theorem wellFollowed_nodeDecoEvents (l : List (String × String)) (n : Node) :
    WellFollowed nd ed (nodeDecoEvents l n) := by
  induction l with
  | nil => simp [nodeDecoEvents, WellFollowed]
  | cons d t ih =>
    exact ⟨by simp [follower], ih⟩

theorem wellFollowed_edgeDeco (e : Edge) : WellFollowed nd ed (edgeDecoEvents ed e) :=
  wellFollowed_edgeDecoEvents nd ed ed e

theorem wellFollowed_nodeDeco (n : Node) : WellFollowed nd ed (nodeDecoEvents nd n) :=
  wellFollowed_nodeDecoEvents nd ed nd n

/-- Reading of `WellFollowed`: wherever an event occurs, its follower comes next. -/
theorem wellFollowed_split (tr : List Event) (h : WellFollowed nd ed tr)
    (pre : List Event) (ev : Event) (post : List Event) (htr : tr = pre ++ ev :: post) :
    follower nd ed ev <+: post := by
  induction pre generalizing tr with
  | nil =>
    subst htr
    exact h.1
  | cons x rest ih =>
    subst htr
    exact ih _ h.2 rfl

theorem firstOccurrences_cons (x : Node) (xs seen : List Node) :
    firstOccurrences (x :: xs) seen
      = if x ∈ seen then firstOccurrences xs seen
        else x :: firstOccurrences xs (seen ++ [x]) := rfl

theorem firstOccurrences_snoc (xs seen : List Node) (x : Node) :
    firstOccurrences (xs ++ [x]) seen
      = if x ∈ seen ∨ x ∈ firstOccurrences xs seen then firstOccurrences xs seen
        else firstOccurrences xs seen ++ [x] := by
  induction xs generalizing seen with
  | nil =>
    by_cases h : x ∈ seen <;> simp [firstOccurrences, h]
  | cons y ys ih =>
    rw [List.cons_append, firstOccurrences_cons, firstOccurrences_cons]
    by_cases hy : y ∈ seen
    · rw [if_pos hy, if_pos hy]
      exact ih seen
    · rw [if_neg hy, if_neg hy, ih (seen ++ [y])]
      by_cases hxy : x = y
      · subst hxy; simp
      · have hyx : ¬ y = x := fun h => hxy h.symm
        by_cases h1 : x ∈ seen <;>
          by_cases h2 : x ∈ firstOccurrences ys (seen ++ [y]) <;>
          simp [h1, h2, hxy, hyx]

theorem safe_init (g0 : G) (start : Node) : Safe ops g0 start nd ed (initState g0 start) := by
  constructor <;> simp [initState, replay, WellFollowed, follower, firstOccurrences]

theorem safe_pop (g0 : G) (start : Node) (st : BfsState G) (current : Node)
    (rest : List Node) (h : Safe ops g0 start nd ed st) (hq : st.queue = current :: rest) :
    Safe ops g0 start nd ed (poppedState current rest st) := by
  obtain ⟨h1, h2, h3, h4, h5, h6, h7, h8, h9⟩ := h
  constructor
  · simpa [poppedState] using h1
  · simpa [poppedState] using h2
  · simpa [poppedState] using h3
  · simpa [poppedState, hq] using h4
  · simp [poppedState, replay_append, h5, replay]
  · simpa [poppedState] using h6
  · simpa [poppedState] using h7
  · exact wellFollowed_append nd ed _ _ h8 ⟨by simp [follower], trivial⟩
  · simpa [poppedState] using h9

theorem safe_seen (g0 : G) (start : Node) (current dst : Node) (st : BfsState G)
    (edge : Edge) (g1 : G) (h : Safe ops g0 start nd ed st)
    (hadd : ops.addEdge st.graph current dst = .ok (edge, g1))
    (hmem : dst ∈ st.visitedNodes) :
    Safe ops g0 start nd ed (seenState ops ed current dst edge g1 st) := by
  obtain ⟨h1, h2, h3, h4, h5, h6, h7, h8, h9⟩ := h
  constructor
  · simpa [seenState] using h1
  · simpa [seenState] using h2
  · simpa [seenState] using h3
  · simpa [seenState] using h4
  · simp [seenState, replay_append, h5, replay, hadd, replay_edgeDeco]
  · simpa [seenState] using h6
  · simp [seenState, h7]
  · refine wellFollowed_append nd ed _ _ h8 ⟨?_, wellFollowed_edgeDeco nd ed edge⟩
    simp [follower]
  · have hm : dst ∈ firstOccurrences (List.map Prod.snd (edgeCalls st.trace)) [] := by
      rw [← h9]; exact hmem
    simp [seenState, firstOccurrences_snoc, hm, ← h9, hmem]

theorem safe_fresh (g0 : G) (start : Node) (current dst : Node) (st : BfsState G)
    (edge : Edge) (g1 : G) (h : Safe ops g0 start nd ed st)
    (hadd : ops.addEdge st.graph current dst = .ok (edge, g1))
    (hmem : dst ∉ st.visitedNodes) :
    Safe ops g0 start nd ed (freshState ops nd ed current dst edge g1 st) := by
  obtain ⟨h1, h2, h3, h4, h5, h6, h7, h8, h9⟩ := h
  constructor
  · simp [freshState, h1]
  · simp only [freshState]
    exact List.nodup_append.2 ⟨h2, List.nodup_singleton _, by simpa using hmem⟩
  · simp [freshState, h3]
  · simp only [freshState, enqueues_append, dequeues_append, dequeues_cons, dequeues_edgeDeco,
      dequeues_nodeDeco, dequeues_nil, List.append_nil, List.nil_append]
    rw [← List.append_assoc, h4]; simp
  · simp [freshState, replay_append, h5, replay, hadd, replay_edgeDeco, replay_nodeDeco]
  · simp [freshState, h6]
  · simp [freshState, h7]
  · have hb : WellFollowed nd ed (Event.enqueue dst :: Event.markVisited dst
        :: nodeDecoEvents nd dst) :=
      ⟨by simp [follower], by simp [follower], wellFollowed_nodeDeco nd ed dst⟩
    have ha : WellFollowed nd ed (Event.addEdge current dst edge :: edgeDecoEvents ed edge) :=
      ⟨by simp [follower], wellFollowed_edgeDeco nd ed edge⟩
    exact wellFollowed_append nd ed _ _ (wellFollowed_append nd ed _ _ h8 ha) hb
  · have hm : dst ∉ firstOccurrences (List.map Prod.snd (edgeCalls st.trace)) [] := by
      rw [← h9]; exact hmem
    simp [freshState, firstOccurrences_snoc, hm, ← h9, hmem]

/-- The facts of `Safe` hold in the final state of every run, however it ended. -/
theorem safe_bfsBuild (fuel : Nat) (g0 : G) (start : Node) :
    Safe ops g0 start nd ed (bfsBuild fuel ops g0 start relations nd ed).2 :=
  bfsLoop_always ops relations nd ed (Safe ops g0 start nd ed)
    (fun st current rest h hq => safe_pop ops nd ed g0 start st current rest h hq)
    (fun current dst st edge g1 h hadd hmem =>
      safe_seen ops nd ed g0 start current dst st edge g1 h hadd hmem)
    (fun current dst st edge g1 h hadd hmem =>
      safe_fresh ops nd ed g0 start current dst st edge g1 h hadd hmem)
    fuel (initState g0 start) (safe_init ops nd ed g0 start)

end SafeFacts

/-! ## Which nodes are visited -/

section Reachability

variable {G ε : Type} (ops : GraphOps G ε) (relations : Node → List Node)
  (nd ed : List (String × String))

/-- Every visited node and every queued node other than the initial entry is
reachable from the start node, in the final state of every run. -/
theorem sound_bfsBuild (fuel : Nat) (g0 : G) (start : Node) :
    ∀ n ∈ (bfsBuild fuel ops g0 start relations nd ed).2.visitedNodes,
      Reach relations start n := by
  let P : BfsState G → Prop := fun st =>
    (∀ n ∈ st.visitedNodes, Reach relations start n) ∧
    (∀ q ∈ st.queue, q = start ∨ Reach relations start q)
  let R : Node → List Node → BfsState G → Prop := fun current rest st =>
    (current = start ∨ Reach relations start current) ∧
    (∀ n ∈ rest, n ∈ relations current) ∧ P st
  have hchild : ∀ current n, (current = start ∨ Reach relations start current) →
      n ∈ relations current → Reach relations start n := by
    intro current n hc hn
    rcases hc with hc | hc
    · subst hc; exact Relation.TransGen.single hn
    · exact Relation.TransGen.tail hc hn
  have h := bfsLoop_rule ops relations nd ed P R
    (by
      intro st current rest hP hq
      refine ⟨hP.2 current (by simp [hq]), fun n hn => hn, hP.1, ?_⟩
      intro q hqm
      exact hP.2 q (by simp [hq, show q ∈ rest from hqm]))
    (by
      intro current dst rest st edge g1 hR _ _
      exact ⟨hR.1, fun n hn => hR.2.1 n (List.mem_cons_of_mem _ hn), hR.2.2⟩)
    (by
      intro current dst rest st edge g1 hR _ _
      have hd : Reach relations start dst :=
        hchild current dst hR.1 (hR.2.1 dst (List.mem_cons_self _ _))
      refine ⟨hR.1, fun n hn => hR.2.1 n (List.mem_cons_of_mem _ hn), ?_, ?_⟩
      · intro n hn
        simp only [freshState, List.mem_append, List.mem_singleton] at hn
        rcases hn with hn | hn
        · exact hR.2.2.1 n hn
        · subst hn; exact hd
      · intro q hqm
        simp only [freshState, List.mem_append, List.mem_singleton] at hqm
        rcases hqm with hqm | hqm
        · exact hR.2.2.2 q hqm
        · subst hqm; exact Or.inr hd)
    (fun _ _ hR => hR.2.2) fuel (initState g0 start)
    (by
      refine ⟨?_, ?_⟩
      · intro n hn; simp [initState] at hn
      · intro q hq
        simp only [initState, List.mem_singleton] at hq
        exact Or.inl hq)
  rcases hres : bfsBuild fuel ops g0 start relations nd ed with ⟨status, st1⟩
  have hres1 : bfsLoop ops relations nd ed fuel (initState g0 start) = (status, st1) := hres
  cases status with
  | returned => exact (h.1 st1 hres1).1.1
  | running => exact (h.2.1 st1 hres1).1.1
  | threw e =>
    obtain ⟨_, _, _, hR, _⟩ := h.2.2 e st1 hres1
    exact hR.2.2.1

/-- When the function returns, the visited set is closed under the relation and
contains the children of the start node. -/
theorem closed_bfsBuild (fuel : Nat) (g0 : G) (start : Node)
    (hret : (bfsBuild fuel ops g0 start relations nd ed).1 = Status.returned) :
    ∀ c, (c = start ∨ c ∈ (bfsBuild fuel ops g0 start relations nd ed).2.visitedNodes) →
      ∀ n ∈ relations c, n ∈ (bfsBuild fuel ops g0 start relations nd ed).2.visitedNodes := by
  let P : BfsState G → Prop := fun st =>
    ∀ c, (c = start ∨ c ∈ st.visitedNodes) →
      c ∈ st.queue ∨ ∀ n ∈ relations c, n ∈ st.visitedNodes
  let R : Node → List Node → BfsState G → Prop := fun current rest st =>
    (∀ n ∈ relations current, n ∈ st.visitedNodes ∨ n ∈ rest) ∧
    ∀ c, (c = start ∨ c ∈ st.visitedNodes) →
      c ∈ st.queue ∨ c = current ∨ ∀ n ∈ relations c, n ∈ st.visitedNodes
  have h := bfsLoop_rule ops relations nd ed P R
    (by
      intro st current rest hP hq
      refine ⟨fun n hn => Or.inr hn, ?_⟩
      intro c hc
      rcases hP c hc with hcq | hcl
      · rw [hq] at hcq
        rcases List.mem_cons.1 hcq with h1 | h1
        · exact Or.inr (Or.inl h1)
        · exact Or.inl h1
      · exact Or.inr (Or.inr hcl))
    (by
      intro current dst rest st edge g1 hR _ hmem
      refine ⟨?_, hR.2⟩
      intro n hn
      rcases hR.1 n hn with h1 | h1
      · exact Or.inl h1
      · rcases List.mem_cons.1 h1 with h2 | h2
        · subst h2; exact Or.inl hmem
        · exact Or.inr h2)
    (by
      intro current dst rest st edge g1 hR _ hmem
      refine ⟨?_, ?_⟩
      · intro n hn
        simp only [freshState, List.mem_append, List.mem_singleton]
        rcases hR.1 n hn with h1 | h1
        · exact Or.inl (Or.inl h1)
        · rcases List.mem_cons.1 h1 with h2 | h2
          · exact Or.inl (Or.inr h2)
          · exact Or.inr h2
      · intro c hc
        simp only [freshState, List.mem_append, List.mem_singleton] at hc ⊢
        have hold : (c = start ∨ c ∈ st.visitedNodes) ∨ c = dst := by tauto
        rcases hold with hold | hold
        · rcases hR.2 c hold with h1 | h1 | h1
          · exact Or.inl (Or.inl h1)
          · exact Or.inr (Or.inl h1)
          · exact Or.inr (Or.inr (fun n hn => Or.inl (h1 n hn)))
        · exact Or.inl (Or.inr hold))
    (by
      intro current st hR c hc
      rcases hR.2 c hc with h1 | h1 | h1
      · exact Or.inl h1
      · subst h1
        refine Or.inr (fun n hn => ?_)
        rcases hR.1 n hn with h2 | h2
        · exact h2
        · simp at h2
      · exact Or.inr h1)
    fuel (initState g0 start)
    (by
      intro c hc
      simp only [initState, List.not_mem_nil, or_false] at hc
      exact Or.inl (by simp [initState, hc]))
  rcases hres : bfsBuild fuel ops g0 start relations nd ed with ⟨status, st1⟩
  have hres1 : bfsLoop ops relations nd ed fuel (initState g0 start) = (status, st1) := hres
  rw [hres] at hret
  simp only at hret
  subst hret
  obtain ⟨hP, hq⟩ := h.1 st1 hres1
  intro c hc
  rcases hP c hc with h1 | h1
  · rw [hq] at h1; simp at h1
  · exact h1

/-- When the function returns, the visited set is the set of nodes reachable
from the start node by one or more steps. -/
theorem visited_iff_reach (fuel : Nat) (g0 : G) (start : Node)
    (hret : (bfsBuild fuel ops g0 start relations nd ed).1 = Status.returned) (n : Node) :
    n ∈ (bfsBuild fuel ops g0 start relations nd ed).2.visitedNodes
      ↔ Reach relations start n := by
  constructor
  · exact sound_bfsBuild ops relations nd ed fuel g0 start n
  · intro hreach
    have hcl := closed_bfsBuild ops relations nd ed fuel g0 start hret
    induction hreach with
    | single h => exact hcl start (Or.inl rfl) _ h
    | tail _ h ih => exact hcl _ (Or.inr ih) _ h

end Reachability

/-! ## Termination -/

section Termination

variable {G ε : Type} (ops : GraphOps G ε) (relations : Node → List Node)
  (nd ed : List (String × String))

theorem forEachChild_dequeues (current : Node) (children : List Node) (st : BfsState G) :
    dequeues (forEachChild ops nd ed current children st).2.trace = dequeues st.trace := by
  have h := forEachChild_rule ops nd ed current
    (fun _ s => dequeues s.trace = dequeues st.trace)
    (by intro dst rest s edge g1 hR _ _; simpa [seenState] using hR)
    (by intro dst rest s edge g1 hR _ _; simpa [freshState] using hR)
    children st rfl
  rcases hres : forEachChild ops nd ed current children st with ⟨r, st1⟩
  cases r with
  | none => exact h.1 st1 hres
  | some e =>
    obtain ⟨_, _, hR, _⟩ := h.2 e st1 hres
    exact hR

/-- A run that is cut off by the fuel has made exactly `fuel` dequeues. -/
theorem bfsLoop_running_count (fuel : Nat) (st st1 : BfsState G)
    (h : bfsLoop ops relations nd ed fuel st = (Status.running, st1)) :
    (dequeues st1.trace).length = (dequeues st.trace).length + fuel := by
  induction fuel generalizing st with
  | zero =>
    cases hq : st.queue with
    | nil => simp [bfsLoop, hq] at h
    | cons current rest =>
      simp only [bfsLoop, hq, Prod.mk.injEq, true_and] at h
      subst h; simp
  | succ fuel ih =>
    cases hq : st.queue with
    | nil => simp [bfsLoop, hq] at h
    | cons current rest =>
      have hunf : bfsLoop ops relations nd ed (fuel + 1) st
          = match forEachChild ops nd ed current (relations current)
              (poppedState current rest st) with
            | (some e, st1) => (Status.threw e, st1)
            | (none, st1) => bfsLoop ops relations nd ed fuel st1 := by
        simp [bfsLoop, hq, poppedState]
      rw [hunf] at h
      have hd := forEachChild_dequeues ops nd ed current (relations current)
        (poppedState current rest st)
      rcases hfe : forEachChild ops nd ed current (relations current)
          (poppedState current rest st) with ⟨r, st2⟩
      rw [hfe] at h hd
      cases r with
      | some e => simp at h
      | none =>
        simp only at h hd
        rw [ih st2 h, hd]
        simp [poppedState]
        omega

/-- The number of dequeues never exceeds the number of reachable nodes plus one,
and a run with that much fuel is not cut off. -/
theorem dequeues_bound (S : Finset Node) (start : Node)
    (hS : ∀ n, Reach relations start n → n ∈ S) (fuel : Nat) (g0 : G) :
    (dequeues (bfsBuild fuel ops g0 start relations nd ed).2.trace).length ≤ S.card + 1 ∧
    (S.card + 1 ≤ fuel →
      (bfsBuild fuel ops g0 start relations nd ed).1 ≠ Status.running) := by
  have hsafe := safe_bfsBuild ops relations nd ed fuel g0 start
  have hsound := sound_bfsBuild ops relations nd ed fuel g0 start
  rcases hres : bfsBuild fuel ops g0 start relations nd ed with ⟨status, st1⟩
  rw [hres] at hsafe hsound
  simp only at hsafe hsound ⊢
  have hcard : st1.visitedNodes.length ≤ S.card := by
    rw [← List.toFinset_card_of_nodup hsafe.nodup]
    apply Finset.card_le_card
    intro n hn
    exact hS n (hsound n (List.mem_toFinset.1 hn))
  have hlen : (dequeues st1.trace).length + st1.queue.length
      = st1.visitedNodes.length + 1 := by
    have := congrArg List.length hsafe.deq
    simpa using this
  refine ⟨by omega, ?_⟩
  intro hfuel hrun
  subst hrun
  have hcount := bfsLoop_running_count ops relations nd ed fuel (initState g0 start) st1 hres
  have hne : st1.queue ≠ [] := by
    have h := bfsLoop_rule ops relations nd ed (fun _ => True) (fun _ _ _ => True)
      (fun _ _ _ _ _ => trivial) (fun _ _ _ _ _ _ _ _ _ => trivial)
      (fun _ _ _ _ _ _ _ _ _ => trivial) (fun _ _ _ => trivial) fuel (initState g0 start) trivial
    exact (h.2.1 st1 hres).2
  have hpos : 0 < st1.queue.length := List.length_pos.2 hne
  simp [initState] at hcount
  omega

/-- With a graph whose `addEdge` never raises an error, no run ends with an error. -/
theorem not_threw_of_addEdge_ok
    (hok : ∀ g a b, ∃ r, ops.addEdge g a b = .ok r) (fuel : Nat) (g0 : G) (start : Node)
    (e : ε) : (bfsBuild fuel ops g0 start relations nd ed).1 ≠ Status.threw e := by
  intro hthrew
  have h := bfsLoop_rule ops relations nd ed (fun _ => True) (fun _ _ _ => True)
    (fun _ _ _ _ _ => trivial) (fun _ _ _ _ _ _ _ _ _ => trivial)
    (fun _ _ _ _ _ _ _ _ _ => trivial) (fun _ _ _ => trivial) fuel (initState g0 start) trivial
  rcases hres : bfsBuild fuel ops g0 start relations nd ed with ⟨status, st1⟩
  rw [hres] at hthrew
  simp only at hthrew
  subst hthrew
  obtain ⟨current, dst, _, _, herr⟩ := h.2.2 e st1 hres
  obtain ⟨r, hr⟩ := hok st1.graph current dst
  rw [hr] at herr
  cases herr

/-- With a finite reachable set and a graph whose `addEdge` never raises an error
the function returns once the fuel exceeds the number of reachable nodes. -/
theorem returned_of_finite (S : Finset Node) (start : Node)
    (hS : ∀ n, Reach relations start n → n ∈ S)
    (hok : ∀ g a b, ∃ r, ops.addEdge g a b = .ok r) (fuel : Nat) (hfuel : S.card + 1 ≤ fuel)
    (g0 : G) : (bfsBuild fuel ops g0 start relations nd ed).1 = Status.returned := by
  have h1 := (dequeues_bound ops relations nd ed S start hS fuel g0).2 hfuel
  have h2 := not_threw_of_addEdge_ok ops relations nd ed hok fuel g0 start
  cases hst : (bfsBuild fuel ops g0 start relations nd ed).1 with
  | returned => rfl
  | running => exact absurd hst h1
  | threw e => exact absurd hst (h2 e)

end Termination


/-! ## The calls made on the graph -/

section Calls

variable {G ε : Type} (ops : GraphOps G ε) (relations : Node → List Node)
  (nd ed : List (String × String))

theorem expectedEdgeCalls_snoc (ds : List Node) (c : Node) :
    expectedEdgeCalls relations (ds ++ [c])
      = expectedEdgeCalls relations ds ++ (relations c).map (fun t => (c, t)) := by
  simp [expectedEdgeCalls, List.flatMap_append]

/-- The endpoints of the `addEdge` calls: all entries of all dequeued nodes when
no error was raised, and all entries up to the failing one otherwise. -/
theorem calls_bfsBuild (fuel : Nat) (g0 : G) (start : Node) :
    ((∀ e, (bfsBuild fuel ops g0 start relations nd ed).1 ≠ Status.threw e) →
      edgeCalls (bfsBuild fuel ops g0 start relations nd ed).2.trace
        = expectedEdgeCalls relations
            (dequeues (bfsBuild fuel ops g0 start relations nd ed).2.trace)) ∧
    (∀ e, (bfsBuild fuel ops g0 start relations nd ed).1 = Status.threw e →
      ∃ ds current done dst rest,
        dequeues (bfsBuild fuel ops g0 start relations nd ed).2.trace = ds ++ [current] ∧
        relations current = done ++ dst :: rest ∧
        edgeCalls (bfsBuild fuel ops g0 start relations nd ed).2.trace
          = expectedEdgeCalls relations ds ++ done.map (fun t => (current, t)) ∧
        ops.addEdge (bfsBuild fuel ops g0 start relations nd ed).2.graph current dst
          = .error e) := by
  let P : BfsState G → Prop := fun st =>
    edgeCalls st.trace = expectedEdgeCalls relations (dequeues st.trace)
  let R : Node → List Node → BfsState G → Prop := fun current rest st =>
    ∃ ds done, dequeues st.trace = ds ++ [current] ∧ relations current = done ++ rest ∧
      edgeCalls st.trace = expectedEdgeCalls relations ds ++ done.map (fun t => (current, t))
  have h := bfsLoop_rule ops relations nd ed P R
    (by
      intro st current rest hP _
      refine ⟨dequeues st.trace, [], ?_, ?_, ?_⟩
      · simp [poppedState]
      · simp
      · simpa [poppedState] using hP)
    (by
      intro current dst rest st edge g1 hR _ _
      obtain ⟨ds, done, h1, h2, h3⟩ := hR
      refine ⟨ds, done ++ [dst], ?_, ?_, ?_⟩
      · simpa [seenState] using h1
      · simp [h2]
      · simp [seenState, h3])
    (by
      intro current dst rest st edge g1 hR _ _
      obtain ⟨ds, done, h1, h2, h3⟩ := hR
      refine ⟨ds, done ++ [dst], ?_, ?_, ?_⟩
      · simpa [freshState] using h1
      · simp [h2]
      · simp [freshState, h3])
    (by
      intro current st hR
      obtain ⟨ds, done, h1, h2, h3⟩ := hR
      simp only [List.append_nil] at h2
      show edgeCalls st.trace = expectedEdgeCalls relations (dequeues st.trace)
      rw [h1, expectedEdgeCalls_snoc, h3, h2])
    fuel (initState g0 start) (by simp [P, initState, expectedEdgeCalls])
  rcases hres : bfsBuild fuel ops g0 start relations nd ed with ⟨status, st1⟩
  have hres1 : bfsLoop ops relations nd ed fuel (initState g0 start) = (status, st1) := hres
  constructor
  · intro hne
    cases status with
    | returned => exact (h.1 st1 hres1).1
    | running => exact (h.2.1 st1 hres1).1
    | threw e => exact absurd rfl (hne e)
  · intro e he
    simp only at he
    subst he
    obtain ⟨current, dst, rest, ⟨ds, done, h1, h2, h3⟩, herr⟩ := h.2.2 e st1 hres1
    exact ⟨ds, current, done, dst, rest, h1, h2, h3, herr⟩

/-- When the function returns, the dequeued nodes are the start node followed by
the returned nodes in the order of their discovery. -/
theorem dequeues_of_returned (fuel : Nat) (g0 : G) (start : Node)
    (hret : (bfsBuild fuel ops g0 start relations nd ed).1 = Status.returned) :
    dequeues (bfsBuild fuel ops g0 start relations nd ed).2.trace
      = start :: (bfsBuild fuel ops g0 start relations nd ed).2.visitedNodes := by
  have hsafe := safe_bfsBuild ops relations nd ed fuel g0 start
  have h := bfsLoop_rule ops relations nd ed (fun _ => True) (fun _ _ _ => True)
    (fun _ _ _ _ _ => trivial) (fun _ _ _ _ _ _ _ _ _ => trivial)
    (fun _ _ _ _ _ _ _ _ _ => trivial) (fun _ _ _ => trivial) fuel (initState g0 start) trivial
  rcases hres : bfsBuild fuel ops g0 start relations nd ed with ⟨status, st1⟩
  rw [hres] at hret hsafe
  simp only at hret hsafe ⊢
  subst hret
  have hq := (h.1 st1 hres).2
  have := hsafe.deq
  rw [hq, List.append_nil] at this
  exact this

theorem forEachChild_append (current : Node) (done rest : List Node) (st : BfsState G) :
    forEachChild ops nd ed current (done ++ rest) st
      = match forEachChild ops nd ed current done st with
        | (none, st2) => forEachChild ops nd ed current rest st2
        | (some e, st2) => (some e, st2) := by
  induction done generalizing st with
  | nil => simp [forEachChild]
  | cons d ds ih =>
    cases hv : visitChild ops nd ed current st d with
    | error e => simp [forEachChild, hv]
    | ok st1 => simp [forEachChild, hv, ih]

theorem count_nodeDeco (l : List (String × String)) (x n : Node) (k v : String) :
    (l.map (fun d => (x, d.1, d.2))).count (n, k, v)
      = if x = n then l.count (k, v) else 0 := by
  induction l with
  | nil => simp
  | cons d t ih =>
    obtain ⟨dk, dv⟩ := d
    rw [List.map_cons, List.count_cons, ih, List.count_cons]
    by_cases hx : x = n
    · subst hx
      by_cases hd : (dk, dv) = (k, v)
      · simp [hd]
      · have hd2 : ¬ (dk = k ∧ dv = v) := fun h => hd (by rw [h.1, h.2])
        simp [hd, hd2]
    · simp [hx]

theorem count_flatMap_nodeDeco (l : List (String × String)) (V : List Node) (hV : V.Nodup)
    (n : Node) (k v : String) :
    (V.flatMap (fun x => l.map (fun d => (x, d.1, d.2)))).count (n, k, v)
      = if n ∈ V then l.count (k, v) else 0 := by
  induction V with
  | nil => simp
  | cons x xs ih =>
    have hx : x ∉ xs := (List.nodup_cons.1 hV).1
    rw [List.flatMap_cons, List.count_append, count_nodeDeco, ih (List.nodup_cons.1 hV).2]
    by_cases h1 : x = n
    · subst h1; simp [hx]
    · have h2 : ¬ n = x := fun h => h1 h.symm
      simp [h1, h2]

end Calls

/-! ## Breadth-first order -/

section Order

variable {G ε : Type} (ops : GraphOps G ε) (relations : Node → List Node)
  (nd ed : List (String × String))

theorem near_mono {start : Node} {k : Nat} {n : Node} (h : Near relations start k n) :
    ∀ j, k ≤ j → Near relations start j n := by
  induction h with
  | first hn =>
    intro j hj
    cases j with
    | zero => omega
    | succ j => exact Near.first hn
  | next _ hn ih =>
    intro j hj
    cases j with
    | zero => omega
    | succ j => exact Near.next (ih j (by omega)) hn

theorem near_inv {start : Node} {k : Nat} {n : Node} (h : Near relations start (k + 1) n) :
    n ∈ relations start ∨ ∃ c, Near relations start k c ∧ n ∈ relations c := by
  cases h with
  | first hn => exact Or.inl hn
  | next hc hn => exact Or.inr ⟨_, hc, hn⟩

theorem not_near_zero {start : Node} {n : Node} : ¬ Near relations start 0 n := by
  intro h
  cases h

theorem near_child {start : Node} {d : Nat} {current dst : Node}
    (hl : AtLevel relations start d current) (hn : dst ∈ relations current) :
    Near relations start (d + 1) dst := by
  cases d with
  | zero =>
    simp only [AtLevel] at hl
    subst hl
    exact Near.first hn
  | succ j => exact Near.next hl.1 hn

/-- Reachability is reachability within some number of steps. -/
theorem reach_iff_near (start n : Node) :
    Reach relations start n ↔ ∃ k, Near relations start k n := by
  constructor
  · intro h
    induction h with
    | single h => exact ⟨1, Near.first h⟩
    | tail _ h ih =>
      obtain ⟨k, hk⟩ := ih
      exact ⟨k + 1, Near.next hk h⟩
  · rintro ⟨k, hk⟩
    induction hk with
    | first hn => exact Relation.TransGen.single hn
    | next _ hn ih => exact Relation.TransGen.tail ih hn

theorem levels_up (start : Node) (d : Nat) (Qb V : List Node)
    (h : Levels relations start d [] Qb V (fun _ => False)) :
    Levels relations start (d + 1) Qb [] V (fun _ => False) := by
  have hcomp : ∀ n, Near relations start (d + 1) n → n ∈ V := by
    intro n hn
    rcases h.frontier n hn with h1 | h1 | ⟨c, hc, _⟩
    · exact h1
    · exact h1.elim
    · simp at hc
  refine ⟨h.qb, by simp, ?_, hcomp, ?_, ?_, h.sorted⟩
  · intro n hn
    exact near_mono relations (h.within n hn) _ (by omega)
  · intro n hn
    rcases near_inv relations hn with h1 | ⟨c, hc, hnc⟩
    · exact Or.inl (hcomp n (near_mono relations (Near.first (k := 0) h1) _ (by omega)))
    · by_cases hcd : Near relations start d c
      · exact Or.inl (hcomp n (Near.next hcd hnc))
      · exact Or.inr (Or.inr ⟨c, h.pending c (hcomp c hc) hcd, hnc⟩)
  · intro n hn hnn
    exact absurd (h.within n hn) hnn

theorem levels_pop (start : Node) (d : Nat) (current : Node) (Qa Qb V : List Node)
    (h : Levels relations start d (current :: Qa) Qb V (fun _ => False)) :
    AtLevel relations start d current ∧
    Levels relations start d Qa Qb V (fun n => n ∈ relations current) := by
  refine ⟨h.qa current (List.mem_cons_self _ _),
    fun x hx => h.qa x (List.mem_cons_of_mem _ hx), h.qb, h.within, h.complete, ?_,
    h.pending, h.sorted⟩
  intro n hn
  rcases h.frontier n hn with h1 | h1 | ⟨c, hc, hnc⟩
  · exact Or.inl h1
  · exact h1.elim
  · rcases List.mem_cons.1 hc with h2 | h2
    · subst h2; exact Or.inr (Or.inl hnc)
    · exact Or.inr (Or.inr ⟨c, h2, hnc⟩)

theorem levels_seen (start : Node) (d : Nat) (dst : Node) (rest Qa Qb V : List Node)
    (h : Levels relations start d Qa Qb V (fun n => n ∈ dst :: rest)) (hmem : dst ∈ V) :
    Levels relations start d Qa Qb V (fun n => n ∈ rest) := by
  refine ⟨h.qa, h.qb, h.within, h.complete, ?_, h.pending, h.sorted⟩
  intro n hn
  rcases h.frontier n hn with h1 | h1 | h1
  · exact Or.inl h1
  · rcases List.mem_cons.1 h1 with h2 | h2
    · subst h2; exact Or.inl hmem
    · exact Or.inr (Or.inl h2)
  · exact Or.inr (Or.inr h1)

theorem levels_fresh (start : Node) (d : Nat) (current dst : Node) (rest Qa Qb V : List Node)
    (h : Levels relations start d Qa Qb V (fun n => n ∈ dst :: rest))
    (hl : AtLevel relations start d current) (hn : dst ∈ relations current)
    (hmem : dst ∉ V) :
    Levels relations start d Qa (Qb ++ [dst]) (V ++ [dst]) (fun n => n ∈ rest) := by
  have hnear : Near relations start (d + 1) dst := near_child relations hl hn
  have hfar : ¬ Near relations start d dst := fun hd => hmem (h.complete dst hd)
  refine ⟨h.qa, ?_, ?_, ?_, ?_, ?_, ?_⟩
  · intro x hx
    rcases List.mem_append.1 hx with h1 | h1
    · exact h.qb x h1
    · rw [List.mem_singleton] at h1
      subst h1
      exact ⟨hnear, hfar⟩
  · intro n hv
    rcases List.mem_append.1 hv with h1 | h1
    · exact h.within n h1
    · rw [List.mem_singleton] at h1
      subst h1
      exact hnear
  · intro n hd
    exact List.mem_append_left _ (h.complete n hd)
  · intro n hd
    rcases h.frontier n hd with h1 | h1 | h1
    · exact Or.inl (List.mem_append_left _ h1)
    · rcases List.mem_cons.1 h1 with h2 | h2
      · subst h2; exact Or.inl (List.mem_append_right _ (List.mem_singleton_self _))
      · exact Or.inr (Or.inl h2)
    · exact Or.inr (Or.inr h1)
  · intro n hv hnn
    rcases List.mem_append.1 hv with h1 | h1
    · exact List.mem_append_left _ (h.pending n h1 hnn)
    · exact List.mem_append_right _ h1
  · refine List.pairwise_append.2 ⟨h.sorted, List.pairwise_singleton _ _, ?_⟩
    intro a ha b hb k hk
    rw [List.mem_singleton] at hb
    subst hb
    have hkd : d + 1 ≤ k := by
      by_contra hlt
      exact hfar (near_mono relations hk d (by omega))
    exact near_mono relations (h.within a ha) k hkd

/-- The visited nodes are in breadth-first order in the final state of every
run: a node never has a shorter shortest path than a node visited before it. -/
theorem sorted_bfsBuild (fuel : Nat) (g0 : G) (start : Node) :
    (bfsBuild fuel ops g0 start relations nd ed).2.visitedNodes.Pairwise
      (fun a b => ∀ k, Near relations start k b → Near relations start k a) := by
  let P : BfsState G → Prop := fun st =>
    ∃ d Qa Qb, st.queue = Qa ++ Qb ∧
      Levels relations start d Qa Qb st.visitedNodes (fun _ => False)
  let R : Node → List Node → BfsState G → Prop := fun current rest st =>
    ∃ d Qa Qb, st.queue = Qa ++ Qb ∧ AtLevel relations start d current ∧
      (∀ n ∈ rest, n ∈ relations current) ∧
      Levels relations start d Qa Qb st.visitedNodes (fun n => n ∈ rest)
  have h := bfsLoop_rule ops relations nd ed P R
    (by
      intro st current rest hP hq
      obtain ⟨d, Qa, Qb, hsplit, hl⟩ := hP
      cases Qa with
      | nil =>
        have hl1 := levels_up relations start d Qb st.visitedNodes hl
        rw [hq, List.nil_append] at hsplit
        rw [← hsplit] at hl1
        obtain ⟨h1, h2⟩ := levels_pop relations start (d + 1) current rest [] _ hl1
        exact ⟨d + 1, rest, [], by simp [poppedState], h1, fun n hn => hn, h2⟩
      | cons x Qa1 =>
        rw [hq, List.cons_append] at hsplit
        obtain ⟨hx, hrest⟩ := List.cons.inj hsplit
        subst hx
        obtain ⟨h1, h2⟩ := levels_pop relations start d current Qa1 Qb _ hl
        exact ⟨d, Qa1, Qb, by simp [poppedState, hrest], h1, fun n hn => hn, h2⟩)
    (by
      intro current dst rest st edge g1 hR _ hmem
      obtain ⟨d, Qa, Qb, hsplit, hcur, hsub, hl⟩ := hR
      exact ⟨d, Qa, Qb, hsplit, hcur, fun n hn => hsub n (List.mem_cons_of_mem _ hn),
        levels_seen relations start d dst rest Qa Qb _ hl hmem⟩)
    (by
      intro current dst rest st edge g1 hR _ hmem
      obtain ⟨d, Qa, Qb, hsplit, hcur, hsub, hl⟩ := hR
      refine ⟨d, Qa, Qb ++ [dst], ?_, hcur, fun n hn => hsub n (List.mem_cons_of_mem _ hn),
        levels_fresh relations start d current dst rest Qa Qb _ hl hcur
          (hsub dst (List.mem_cons_self _ _)) hmem⟩
      show st.queue ++ [dst] = Qa ++ (Qb ++ [dst])
      rw [hsplit, List.append_assoc])
    (by
      intro current st hR
      obtain ⟨d, Qa, Qb, hsplit, _, _, hl⟩ := hR
      refine ⟨d, Qa, Qb, hsplit, hl.qa, hl.qb, hl.within, hl.complete, ?_, hl.pending,
        hl.sorted⟩
      intro n hn
      rcases hl.frontier n hn with h1 | h1 | h1
      · exact Or.inl h1
      · simp at h1
      · exact Or.inr (Or.inr h1))
    fuel (initState g0 start)
    (by
      refine ⟨0, [start], [], rfl, ?_, ?_, ?_, ?_, ?_, ?_, ?_⟩
      · intro x hx
        rw [List.mem_singleton] at hx
        exact hx
      · intro x hx; simp at hx
      · intro n hn; simp [initState] at hn
      · intro n hn; exact absurd hn (not_near_zero relations)
      · intro n hn
        rcases near_inv relations hn with h1 | ⟨c, hc, _⟩
        · exact Or.inr (Or.inr ⟨start, List.mem_singleton_self _, h1⟩)
        · exact absurd hc (not_near_zero relations)
      · intro n hn; simp [initState] at hn
      · simp [initState])
  rcases hres : bfsBuild fuel ops g0 start relations nd ed with ⟨status, st1⟩
  have hres1 : bfsLoop ops relations nd ed fuel (initState g0 start) = (status, st1) := hres
  cases status with
  | returned =>
    obtain ⟨⟨_, _, _, _, hl⟩, _⟩ := h.1 st1 hres1
    exact hl.sorted
  | running =>
    obtain ⟨⟨_, _, _, _, hl⟩, _⟩ := h.2.1 st1 hres1
    exact hl.sorted
  | threw e =>
    obtain ⟨_, _, _, ⟨_, _, _, _, _, _, hl⟩, _⟩ := h.2.2 e st1 hres1
    exact hl.sorted

theorem expectedEdgeCalls_targets (ds : List Node) :
    (expectedEdgeCalls relations ds).map Prod.snd = ds.flatMap relations := by
  induction ds with
  | nil => rfl
  | cons c cs ih =>
    have hc : List.map Prod.snd (List.map (fun t => (c, t)) (relations c)) = relations c := by
      rw [List.map_map]
      exact List.map_id _
    simp only [expectedEdgeCalls, List.flatMap_cons, List.map_append] at ih ⊢
    rw [ih, hc]

end Order

/-! ## Nodes of the graph model -/

section ModelNodes

variable (relations : Node → List Node) (nd ed : List (String × String))

end ModelNodes

/-! ## The relations used as examples -/

section Examples

/-- A set that contains the children of the start node and is closed under the
relation contains every reachable node. -/
theorem reach_mem_of_closed (relations : Node → List Node) (start : Node) (S : List Node)
    (h0 : ∀ n ∈ relations start, n ∈ S) (hc : ∀ c ∈ S, ∀ n ∈ relations c, n ∈ S) :
    ∀ n, Reach relations start n → n ∈ S := by
  intro n h
  induction h with
  | single h => exact h0 _ h
  | tail _ h ih => exact hc _ ih _ h

theorem diamond_reach_mem : ∀ n, Reach diamond nRoot n → n ∈ ({nB, nC, nD} : Finset Node) := by
  intro n h
  have := reach_mem_of_closed diamond nRoot [nB, nC, nD] (by decide) (by decide) n h
  simpa using this

theorem diamond_reach_b : Reach diamond nRoot nB :=
  Relation.TransGen.single (show nB ∈ diamond nRoot by decide)

theorem diamond_reach_c : Reach diamond nRoot nC :=
  Relation.TransGen.single (show nC ∈ diamond nRoot by decide)

theorem diamond_reach_d : Reach diamond nRoot nD :=
  Relation.TransGen.tail diamond_reach_b (show nD ∈ diamond nB by decide)

theorem diamond_reach_iff : ∀ n, n ∈ ({nB, nC, nD} : Finset Node) ↔ Reach diamond nRoot n := by
  intro n
  constructor
  · intro h
    simp only [Finset.mem_insert, Finset.mem_singleton] at h
    rcases h with h | h | h
    · subst h; exact diamond_reach_b
    · subst h; exact diamond_reach_c
    · subst h; exact diamond_reach_d
  · exact diamond_reach_mem n

theorem diamond_card : ({nB, nC, nD} : Finset Node).card = 3 := by decide

theorem looseOps_ok : ∀ (g : List (Node × Node)) (a b : Node),
    ∃ r, looseOps.addEdge g a b = .ok r :=
  fun _ _ _ => ⟨_, rfl⟩

end Examples

/-! ## The returned set -/

/-- C1: for a relation whose set of reachable nodes is finite and a graph whose
`addEdge` never fails, `bfsBuild` returns (any fuel above the number of reachable
nodes is enough) and the returned set is exactly the set of nodes reachable from
`startNode` by one or more relation steps. -/
theorem bfsBuild_returns_reachable_set {G ε : Type} (ops : GraphOps G ε) (g0 : G)
    (start : Node) (relations : Node → List Node) (nd ed : List (String × String))
    (S : Finset Node) (hS : ∀ n, Reach relations start n → n ∈ S)
    (hok : ∀ g a b, ∃ r, ops.addEdge g a b = .ok r)
    (fuel : Nat) (hfuel : S.card + 1 ≤ fuel) :
    (bfsBuild fuel ops g0 start relations nd ed).1 = Status.returned ∧
    ∀ n, n ∈ (bfsBuild fuel ops g0 start relations nd ed).2.visitedNodes
      ↔ Reach relations start n := by
  have hret := returned_of_finite ops relations nd ed S start hS hok fuel hfuel g0
  exact ⟨hret, visited_iff_reach ops relations nd ed fuel g0 start hret⟩

theorem bfsBuild_returns_reachable_set_witness :
    (bfsBuild 4 looseOps [] nRoot diamond [] []).1 = Status.returned ∧
    (nD ∈ (bfsBuild 4 looseOps [] nRoot diamond [] []).2.visitedNodes
      ↔ Reach diamond nRoot nD) ∧
    (nRoot ∈ (bfsBuild 4 looseOps [] nRoot diamond [] []).2.visitedNodes
      ↔ Reach diamond nRoot nRoot) ∧
    (bfsBuild 4 looseOps [] nRoot diamond [] []).2.visitedNodes = [nB, nC, nD] :=
  have h := bfsBuild_returns_reachable_set looseOps [] nRoot diamond [] []
    {nB, nC, nD} diamond_reach_mem looseOps_ok 4 (by decide)
  ⟨h.1, h.2 nD, h.2 nRoot, by decide⟩

/-- C2: when `bfsBuild` returns, `startNode` is in the returned set if and only if
it is reachable from itself by one or more relation steps (a cycle leads back to
it); on a relation without such a cycle the returned set does not contain it. -/
theorem bfsBuild_start_returned_iff_cycle {G ε : Type} (fuel : Nat) (ops : GraphOps G ε)
    (g0 : G) (start : Node) (relations : Node → List Node) (nd ed : List (String × String))
    (hret : (bfsBuild fuel ops g0 start relations nd ed).1 = Status.returned) :
    (start ∈ (bfsBuild fuel ops g0 start relations nd ed).2.visitedNodes
      ↔ Reach relations start start) ∧
    (¬ Reach relations start start →
      start ∉ (bfsBuild fuel ops g0 start relations nd ed).2.visitedNodes) := by
  have h := visited_iff_reach ops relations nd ed fuel g0 start hret start
  exact ⟨h, fun hn hm => hn (h.1 hm)⟩

theorem bfsBuild_start_returned_iff_cycle_witness :
    (bfsBuild 3 looseOps [] nRoot twoCycle [] []).1 = Status.returned ∧
    nRoot ∈ (bfsBuild 3 looseOps [] nRoot twoCycle [] []).2.visitedNodes ∧
    Reach twoCycle nRoot nRoot :=
  have h := bfsBuild_start_returned_iff_cycle 3 looseOps [] nRoot twoCycle [] [] (by decide)
  ⟨by decide, by decide, h.1.1 (by decide)⟩

/-- C10: two runs with the same start node and relation that both return, on
arbitrary graphs (of arbitrary implementations) and with arbitrary decoration
maps, return the same set. -/
theorem bfsBuild_result_independent_of_graph {G1 ε1 G2 ε2 : Type}
    (ops1 : GraphOps G1 ε1) (ops2 : GraphOps G2 ε2) (g1 : G1) (g2 : G2)
    (start : Node) (relations : Node → List Node)
    (nd1 ed1 nd2 ed2 : List (String × String)) (fuel1 fuel2 : Nat)
    (h1 : (bfsBuild fuel1 ops1 g1 start relations nd1 ed1).1 = Status.returned)
    (h2 : (bfsBuild fuel2 ops2 g2 start relations nd2 ed2).1 = Status.returned) (n : Node) :
    n ∈ (bfsBuild fuel1 ops1 g1 start relations nd1 ed1).2.visitedNodes
      ↔ n ∈ (bfsBuild fuel2 ops2 g2 start relations nd2 ed2).2.visitedNodes := by
  rw [visited_iff_reach ops1 relations nd1 ed1 fuel1 g1 start h1 n,
    visited_iff_reach ops2 relations nd2 ed2 fuel2 g2 start h2 n]

theorem bfsBuild_result_independent_of_graph_witness :
    (bfsBuild 4 looseOps [] nRoot diamond [] []).1 = Status.returned ∧
    (bfsBuild 9 specOps fourNodes nRoot diamond [("color", "red")] [("style", "dashed")]).1
      = Status.returned ∧
    (nD ∈ (bfsBuild 4 looseOps [] nRoot diamond [] []).2.visitedNodes ↔
      nD ∈ (bfsBuild 9 specOps fourNodes nRoot diamond [("color", "red")]
        [("style", "dashed")]).2.visitedNodes) :=
  ⟨by decide, by decide,
    bfsBuild_result_independent_of_graph looseOps specOps [] fourNodes nRoot diamond
      [] [] [("color", "red")] [("style", "dashed")] 4 9 (by decide) (by decide) nD⟩

/-! ## How often a node is queued -/

/-- C3 fails as stated: on the cycle `root -> b -> root` the start node is pushed
twice and taken from the queue twice, so the relation is called twice on it. -/
theorem bfsBuild_start_enqueued_twice :
    (bfsBuild 3 looseOps [] nRoot twoCycle [] []).1 = Status.returned ∧
    (enqueues (bfsBuild 3 looseOps [] nRoot twoCycle [] []).2.trace).count nRoot = 2 ∧
    (dequeues (bfsBuild 3 looseOps [] nRoot twoCycle [] []).2.trace).count nRoot = 2 := by
  decide

/-- C3, amended: in every run, however it ends, the pushes are the initial push
of `startNode` followed by the discovered nodes, which are pairwise distinct.  So
a node other than `startNode` is enqueued at most once and `startNode` at most
twice, and because only queued entries are dequeued the relation is called at
most once on a node other than `startNode` and at most twice on `startNode`.
The second push of `startNode` happens exactly when it enters the visited set. -/
theorem bfsBuild_enqueue_counts {G ε : Type} (fuel : Nat) (ops : GraphOps G ε) (g0 : G)
    (start : Node) (relations : Node → List Node) (nd ed : List (String × String))
    (n : Node) :
    enqueues (bfsBuild fuel ops g0 start relations nd ed).2.trace
      = start :: discovered (bfsBuild fuel ops g0 start relations nd ed).2.trace ∧
    (discovered (bfsBuild fuel ops g0 start relations nd ed).2.trace).Nodup ∧
    (enqueues (bfsBuild fuel ops g0 start relations nd ed).2.trace).count n
      ≤ (if n = start then 2 else 1) ∧
    (dequeues (bfsBuild fuel ops g0 start relations nd ed).2.trace).count n
      ≤ (enqueues (bfsBuild fuel ops g0 start relations nd ed).2.trace).count n ∧
    (enqueues (bfsBuild fuel ops g0 start relations nd ed).2.trace).count start
      = (if start ∈ (bfsBuild fuel ops g0 start relations nd ed).2.visitedNodes
          then 2 else 1) := by
  have hsafe := safe_bfsBuild ops relations nd ed fuel g0 start
  generalize (bfsBuild fuel ops g0 start relations nd ed).2 = st at hsafe
  have hnd := hsafe.nodup
  have hcount : st.visitedNodes.count n ≤ 1 := List.nodup_iff_count_le_one.1 hnd n
  refine ⟨by rw [hsafe.enq, hsafe.disc], by rw [hsafe.disc]; exact hnd, ?_, ?_, ?_⟩
  rotate_left 2
  · rw [hsafe.enq, List.count_cons]
    by_cases hm : start ∈ st.visitedNodes
    · rw [List.count_eq_one_of_mem hnd hm]; simp [hm]
    · rw [List.count_eq_zero_of_not_mem hm]; simp [hm]
  · rw [hsafe.enq, List.count_cons]
    by_cases h : n = start
    · subst h; simp; omega
    · have h2 : ¬ start = n := fun h2 => h h2.symm
      simp [h, h2]; omega
  · rw [hsafe.enq, ← hsafe.deq, List.count_append]
    omega

/-! ## Termination of the loop -/

/-- C9: when the set of nodes reachable from `startNode` is finite, the loop ends
(by return or by an error of `addEdge`) within a number of dequeues that is at
most the number of reachable nodes plus one; when it ends by return the queue is
empty. -/
theorem bfsBuild_terminates {G ε : Type} (ops : GraphOps G ε) (g0 : G) (start : Node)
    (relations : Node → List Node) (nd ed : List (String × String))
    (S : Finset Node) (hS : ∀ n, n ∈ S ↔ Reach relations start n)
    (fuel : Nat) (hfuel : S.card + 1 ≤ fuel) :
    (bfsBuild fuel ops g0 start relations nd ed).1 ≠ Status.running ∧
    (dequeues (bfsBuild fuel ops g0 start relations nd ed).2.trace).length ≤ S.card + 1 ∧
    ((bfsBuild fuel ops g0 start relations nd ed).1 = Status.returned →
      (bfsBuild fuel ops g0 start relations nd ed).2.queue = []) := by
  have hb := dequeues_bound ops relations nd ed S start (fun n h => (hS n).2 h) fuel g0
  refine ⟨hb.2 hfuel, hb.1, ?_⟩
  intro hret
  have h := bfsLoop_rule ops relations nd ed (fun _ => True) (fun _ _ _ => True)
    (fun _ _ _ _ _ => trivial) (fun _ _ _ _ _ _ _ _ _ => trivial)
    (fun _ _ _ _ _ _ _ _ _ => trivial) (fun _ _ _ => trivial) fuel (initState g0 start) trivial
  rcases hres : bfsBuild fuel ops g0 start relations nd ed with ⟨status, st1⟩
  rw [hres] at hret
  simp only at hret
  subst hret
  exact (h.1 st1 hres).2

theorem bfsBuild_terminates_witness :
    (bfsBuild 4 specOps rootOnly nRoot diamond [] []).1 ≠ Status.running ∧
    (dequeues (bfsBuild 4 looseOps [] nRoot diamond [] []).2.trace).length ≤ 3 + 1 ∧
    (bfsBuild 4 looseOps [] nRoot diamond [] []).2.queue = [] :=
  ⟨(bfsBuild_terminates specOps rootOnly nRoot diamond [] [] {nB, nC, nD}
      diamond_reach_iff 4 (by decide)).1,
   (bfsBuild_terminates looseOps [] nRoot diamond [] [] {nB, nC, nD}
      diamond_reach_iff 4 (by decide)).2.1,
   (bfsBuild_terminates looseOps [] nRoot diamond [] [] {nB, nC, nD}
      diamond_reach_iff 4 (by decide)).2.2 (by decide)⟩

/-! ## Edges and their decoration -/

/-- C4: in a run in which no error is raised, the `addEdge` calls are exactly one
call `addEdge(current, to)` per dequeued node `current` and per entry `to` of
`relation(current)`, in that order, whether or not `to` was visited before; each
call is directly followed by the whole edge decoration applied to the edge that
the call returned, and no other edge attribute is set.  When the function
returns, the dequeued nodes are `startNode` followed by the returned nodes. -/
theorem bfsBuild_adds_and_decorates_every_edge {G ε : Type} (fuel : Nat)
    (ops : GraphOps G ε) (g0 : G) (start : Node) (relations : Node → List Node)
    (nd ed : List (String × String))
    (hne : ∀ e, (bfsBuild fuel ops g0 start relations nd ed).1 ≠ Status.threw e) :
    edgeCalls (bfsBuild fuel ops g0 start relations nd ed).2.trace
      = expectedEdgeCalls relations
          (dequeues (bfsBuild fuel ops g0 start relations nd ed).2.trace) ∧
    (∀ pre c t e post,
      (bfsBuild fuel ops g0 start relations nd ed).2.trace
        = pre ++ Event.addEdge c t e :: post → edgeDecoEvents ed e <+: post) ∧
    edgeAttrCalls (bfsBuild fuel ops g0 start relations nd ed).2.trace
      = (edgesReturned (bfsBuild fuel ops g0 start relations nd ed).2.trace).flatMap
          (fun e => ed.map (fun d => (e, d.1, d.2))) ∧
    replay ops (bfsBuild fuel ops g0 start relations nd ed).2.trace g0
      = some (bfsBuild fuel ops g0 start relations nd ed).2.graph ∧
    ((bfsBuild fuel ops g0 start relations nd ed).1 = Status.returned →
      dequeues (bfsBuild fuel ops g0 start relations nd ed).2.trace
        = start :: (bfsBuild fuel ops g0 start relations nd ed).2.visitedNodes) := by
  have hsafe := safe_bfsBuild ops relations nd ed fuel g0 start
  refine ⟨(calls_bfsBuild ops relations nd ed fuel g0 start).1 hne, ?_, hsafe.eattr,
    hsafe.rep, dequeues_of_returned ops relations nd ed fuel g0 start⟩
  intro pre c t e post htr
  exact wellFollowed_split nd ed _ hsafe.follow pre (Event.addEdge c t e) post htr

theorem bfsBuild_adds_and_decorates_every_edge_witness :
    edgeCalls (bfsBuild 4 looseOps [] nRoot diamond [] [("style", "dashed")]).2.trace
      = expectedEdgeCalls diamond
          (dequeues (bfsBuild 4 looseOps [] nRoot diamond [] [("style", "dashed")]).2.trace) ∧
    edgeCalls (bfsBuild 4 looseOps [] nRoot diamond [] [("style", "dashed")]).2.trace
      = [(nRoot, nB), (nRoot, nC), (nB, nD), (nC, nD)] ∧
    edgeAttrCalls (bfsBuild 4 looseOps [] nRoot diamond [] [("style", "dashed")]).2.trace
      = [(⟨"0"⟩, "style", "dashed"), (⟨"1"⟩, "style", "dashed"), (⟨"2"⟩, "style", "dashed"),
         (⟨"3"⟩, "style", "dashed")] :=
  ⟨(bfsBuild_adds_and_decorates_every_edge 4 looseOps [] nRoot diamond []
      [("style", "dashed")] (by decide)).1, by decide, by decide⟩

/-! ## Decoration of the nodes -/

/-- C5: the `setAttribute` calls on nodes are, for each node of the visited set
(the returned set when the function returns) in the order of discovery, the
entries of `nodeDecoration` in order; so each entry is applied exactly once to
each such node and never to another node, and the calls for a node come directly
after its insertion into the visited set, which happens once.  These calls are
made on the graph: the graph after the run is the result of carrying out the
calls of the history, the node `setAttribute` calls among them, on the initial
graph. -/
theorem bfsBuild_decorates_each_node_once {G ε : Type} (fuel : Nat) (ops : GraphOps G ε)
    (g0 : G) (start : Node) (relations : Node → List Node) (nd ed : List (String × String))
    (n : Node) (k v : String) :
    nodeAttrCalls (bfsBuild fuel ops g0 start relations nd ed).2.trace
      = (bfsBuild fuel ops g0 start relations nd ed).2.visitedNodes.flatMap
          (fun x => nd.map (fun d => (x, d.1, d.2))) ∧
    (nodeAttrCalls (bfsBuild fuel ops g0 start relations nd ed).2.trace).count (n, k, v)
      = (if n ∈ (bfsBuild fuel ops g0 start relations nd ed).2.visitedNodes
          then nd.count (k, v) else 0) ∧
    discovered (bfsBuild fuel ops g0 start relations nd ed).2.trace
      = (bfsBuild fuel ops g0 start relations nd ed).2.visitedNodes ∧
    (bfsBuild fuel ops g0 start relations nd ed).2.visitedNodes.Nodup ∧
    (∀ pre post,
      (bfsBuild fuel ops g0 start relations nd ed).2.trace
        = pre ++ Event.markVisited n :: post → nodeDecoEvents nd n <+: post) ∧
    replay ops (bfsBuild fuel ops g0 start relations nd ed).2.trace g0
      = some (bfsBuild fuel ops g0 start relations nd ed).2.graph := by
  have hsafe := safe_bfsBuild ops relations nd ed fuel g0 start
  refine ⟨hsafe.nattr, ?_, hsafe.disc, hsafe.nodup, ?_, hsafe.rep⟩
  · rw [hsafe.nattr]
    exact count_flatMap_nodeDeco nd _ hsafe.nodup n k v
  · intro pre post htr
    exact wellFollowed_split nd ed _ hsafe.follow pre (Event.markVisited n) post htr

theorem bfsBuild_decorates_each_node_once_witness :
    (nodeAttrCalls (bfsBuild 4 looseOps [] nRoot diamond [("color", "red")]
      []).2.trace).count (nD, "color", "red") = 1 ∧
    (nodeAttrCalls (bfsBuild 4 looseOps [] nRoot diamond [("color", "red")]
      []).2.trace).count (nRoot, "color", "red") = 0 ∧
    nodeDecoEvents [("color", "red")] nD <+: [Event.setNodeAttribute nD "color" "red",
      Event.dequeue nC, Event.addEdge nC nD ⟨"3"⟩, Event.dequeue nD] ∧
    replay specOps (bfsBuild 4 specOps fourNodes nRoot diamond [("color", "red")]
      []).2.trace fourNodes
      = some (bfsBuild 4 specOps fourNodes nRoot diamond [("color", "red")] []).2.graph ∧
    (bfsBuild 4 specOps fourNodes nRoot diamond [("color", "red")] []).2.graph.nodeAttrs
      = [(nB, "color", "red"), (nC, "color", "red"), (nD, "color", "red")] :=
  have h := bfsBuild_decorates_each_node_once 4 looseOps [] nRoot diamond
    [("color", "red")] [] nD "color" "red"
  ⟨h.2.1.trans (by decide),
   (bfsBuild_decorates_each_node_once 4 looseOps [] nRoot diamond
    [("color", "red")] [] nRoot "color" "red").2.1.trans (by decide),
   h.2.2.2.2.1
    [Event.enqueue nRoot, Event.dequeue nRoot, Event.addEdge nRoot nB ⟨"0"⟩,
      Event.enqueue nB, Event.markVisited nB, Event.setNodeAttribute nB "color" "red",
      Event.addEdge nRoot nC ⟨"1"⟩, Event.enqueue nC, Event.markVisited nC,
      Event.setNodeAttribute nC "color" "red", Event.dequeue nB,
      Event.addEdge nB nD ⟨"2"⟩, Event.enqueue nD]
    [Event.setNodeAttribute nD "color" "red", Event.dequeue nC,
      Event.addEdge nC nD ⟨"3"⟩, Event.dequeue nD] (by decide),
   (bfsBuild_decorates_each_node_once 4 specOps fourNodes nRoot diamond
    [("color", "red")] [] nD "color" "red").2.2.2.2.2,
   by decide⟩

/-! ## Errors of `addEdge` -/

/-- C8: the graph after a run, however it ended, is the result of the completed
`addEdge` and `setAttribute` calls of the history, each `addEdge` among them
having succeeded.  When the run ends with error `e`, the call that raised `e` is
the call `addEdge(current, dst)` on that final graph for the entry `dst` of the
last dequeued node that comes after the entries already handled.  And whenever a
call `addEdge(current, dst)` of the inner loop raises `e`, the loop ends at once
with the same `e` in the state it had before that call. -/
theorem bfsBuild_propagates_addEdge_error {G ε : Type} (fuel : Nat) (ops : GraphOps G ε)
    (g0 : G) (start : Node) (relations : Node → List Node) (nd ed : List (String × String)) :
    replay ops (bfsBuild fuel ops g0 start relations nd ed).2.trace g0
      = some (bfsBuild fuel ops g0 start relations nd ed).2.graph ∧
    (∀ e, (bfsBuild fuel ops g0 start relations nd ed).1 = Status.threw e →
      ∃ ds current done dst rest,
        dequeues (bfsBuild fuel ops g0 start relations nd ed).2.trace = ds ++ [current] ∧
        relations current = done ++ dst :: rest ∧
        edgeCalls (bfsBuild fuel ops g0 start relations nd ed).2.trace
          = expectedEdgeCalls relations ds ++ done.map (fun t => (current, t)) ∧
        ops.addEdge (bfsBuild fuel ops g0 start relations nd ed).2.graph current dst
          = .error e) ∧
    (∀ (st st2 : BfsState G) (current : Node) (restq done : List Node) (dst : Node)
        (rest : List Node) (e : ε) (k : Nat),
      st.queue = current :: restq → relations current = done ++ dst :: rest →
      forEachChild ops nd ed current done (poppedState current restq st) = (none, st2) →
      ops.addEdge st2.graph current dst = .error e →
      bfsLoop ops relations nd ed (k + 1) st = (Status.threw e, st2)) := by
  refine ⟨(safe_bfsBuild ops relations nd ed fuel g0 start).rep,
    (calls_bfsBuild ops relations nd ed fuel g0 start).2, ?_⟩
  intro st st2 current restq done dst rest e k hq hrel hdone herr
  have hv := visitChild_error ops nd ed current dst st2 e herr
  have hfe : forEachChild ops nd ed current (relations current)
      (poppedState current restq st) = (some e, st2) := by
    rw [hrel, forEachChild_append, hdone]
    simp [forEachChild, hv]
  have hunf : bfsLoop ops relations nd ed (k + 1) st
      = match forEachChild ops nd ed current (relations current)
          (poppedState current restq st) with
        | (some e, st1) => (Status.threw e, st1)
        | (none, st1) => bfsLoop ops relations nd ed k st1 := by
    simp [bfsLoop, hq, poppedState]
  rw [hunf, hfe]

theorem bfsBuild_propagates_addEdge_error_witness :
    (bfsBuild 4 specOps fourNodes nRoot (fun n => if n = nRoot then [nB, ⟨"x"⟩, nC] else [])
      [] []).1 = Status.threw GraphError.usageError ∧
    (bfsBuild 4 specOps fourNodes nRoot (fun n => if n = nRoot then [nB, ⟨"x"⟩, nC] else [])
      [] []).2.graph.edges = [(⟨"0"⟩, nRoot, nB)] ∧
    bfsLoop specOps (fun n => if n = nRoot then [nB, ⟨"x"⟩, nC] else []) [] [] (0 + 1)
      (initState fourNodes nRoot)
      = (Status.threw GraphError.usageError,
          (forEachChild specOps [] [] nRoot [nB]
            (poppedState nRoot [] (initState fourNodes nRoot))).2) :=
  ⟨by decide, by decide,
   (bfsBuild_propagates_addEdge_error 4 specOps fourNodes nRoot
      (fun n => if n = nRoot then [nB, ⟨"x"⟩, nC] else []) [] []).2.2
      (initState fourNodes nRoot) _ nRoot [] [nB] ⟨"x"⟩ [nC] GraphError.usageError 0
      rfl (by decide) rfl rfl⟩

/-! ## Order of discovery -/

/-- C6: the discovered nodes, in the order of their insertion into the visited
set, are in breadth-first order: a node that is reachable within `k` steps (one
or more) is never preceded by a node that is not, so the length of the shortest
path of one or more steps from `startNode` is non-decreasing along the sequence,
and every discovered node has such a path.  The order is the order of first
occurrence among the targets of the `addEdge` calls; when no error is raised
these targets are the relation results of the dequeued nodes, in order, and when
the function returns the dequeued nodes are `startNode` followed by the
discovered nodes: parents in discovery order, children in the returned order. -/
theorem bfsBuild_discovers_breadth_first {G ε : Type} (fuel : Nat) (ops : GraphOps G ε)
    (g0 : G) (start : Node) (relations : Node → List Node)
    (nd ed : List (String × String)) :
    (discovered (bfsBuild fuel ops g0 start relations nd ed).2.trace).Pairwise
      (fun a b => ∀ k, Near relations start k b → Near relations start k a) ∧
    (∀ n ∈ discovered (bfsBuild fuel ops g0 start relations nd ed).2.trace,
      ∃ k, Near relations start k n) ∧
    discovered (bfsBuild fuel ops g0 start relations nd ed).2.trace
      = firstOccurrences
          ((edgeCalls (bfsBuild fuel ops g0 start relations nd ed).2.trace).map Prod.snd) [] ∧
    ((∀ e, (bfsBuild fuel ops g0 start relations nd ed).1 ≠ Status.threw e) →
      discovered (bfsBuild fuel ops g0 start relations nd ed).2.trace
        = firstOccurrences
            ((dequeues (bfsBuild fuel ops g0 start relations nd ed).2.trace).flatMap
              relations) []) ∧
    ((bfsBuild fuel ops g0 start relations nd ed).1 = Status.returned →
      dequeues (bfsBuild fuel ops g0 start relations nd ed).2.trace
        = start :: discovered (bfsBuild fuel ops g0 start relations nd ed).2.trace) := by
  have hsafe := safe_bfsBuild ops relations nd ed fuel g0 start
  have hsorted := sorted_bfsBuild ops relations nd ed fuel g0 start
  have hsound := sound_bfsBuild ops relations nd ed fuel g0 start
  have hcalls := (calls_bfsBuild ops relations nd ed fuel g0 start).1
  have hdeq := dequeues_of_returned ops relations nd ed fuel g0 start
  rw [hsafe.disc]
  refine ⟨hsorted, ?_, hsafe.order, ?_, hdeq⟩
  · intro n hn
    exact (reach_iff_near relations start n).1 (hsound n hn)
  · intro hne
    rw [← expectedEdgeCalls_targets, ← hcalls hne]
    exact hsafe.order

theorem bfsBuild_discovers_breadth_first_witness :
    discovered (bfsBuild 4 looseOps [] nRoot diamond [] []).2.trace = [nB, nC, nD] ∧
    discovered (bfsBuild 4 looseOps [] nRoot diamond [] []).2.trace
      = firstOccurrences
          ((dequeues (bfsBuild 4 looseOps [] nRoot diamond [] []).2.trace).flatMap diamond) [] ∧
    dequeues (bfsBuild 4 looseOps [] nRoot diamond [] []).2.trace
      = nRoot :: discovered (bfsBuild 4 looseOps [] nRoot diamond [] []).2.trace :=
  have h := bfsBuild_discovers_breadth_first 4 looseOps [] nRoot diamond [] []
  ⟨by decide, h.2.2.2.1 (by decide), h.2.2.2.2 (by decide)⟩

/-! ## Nodes of the graph -/

end cc.util
